import Mathlib

/-
Verification of the btrfs-optimize fstools package: a shallow embedding of
FileDedupeRangeFull, FileDedupeRangeStatusToString (fideduperange_utils.go),
FiemapWalk (fiemap_utils.go) and the IoctlFiemap alignment guard (fiemap.go),
together with theorems settling the specification claims.

The kernel side of each ioctl is modelled as an oracle parameter: for
FIDEDUPERANGE an oracle mapping (round, request) to either an errno or a list
of per-target (bytes_deduped, status) responses written back into the request,
and for FIEMAP a query function from a start offset to the batch of mapped
extents.  Go's bounds-checked slice indexing is modelled with Option-returning
lookups whose failure produces the Go runtime panic outcome.  Machine integers
(uint64/int64/int32) are modelled as Nat/Int; none of the claims depends on
wraparound, and the code's own guard (dedupeBytes <= Src_length) is what keeps
the uint64 subtraction exact, which the model mirrors with Nat subtraction.
-/

namespace BtrfsOptimize

/-- Linux uapi constant FILE_DEDUPE_RANGE_SAME (linux/fs.h, surfaced to the Go
code through golang.org/x/sys/unix). -/
def FILE_DEDUPE_RANGE_SAME : Int := 0

/-- Linux uapi constant FILE_DEDUPE_RANGE_DIFFERS (linux/fs.h). -/
def FILE_DEDUPE_RANGE_DIFFERS : Int := 1

/-- Model of unix.FileDedupeRangeInfo: one destination target record. -/
structure FileDedupeRangeInfo where
  dest_fd : Int
  dest_offset : Nat
  bytes_deduped : Nat
  status : Int
  reserved : Nat := 0
deriving Repr, DecidableEq, Inhabited

/-- Model of unix.FileDedupeRange: the FIDEDUPERANGE request structure. -/
structure FileDedupeRange where
  src_offset : Nat
  src_length : Nat
  reserved1 : Nat
  reserved2 : Nat
  info : List FileDedupeRangeInfo
deriving Repr, DecidableEq, Inhabited

/-- One kernel reply for a bounded dedupe call: either an errno-level failure
of the whole ioctl, or a per-target list of (bytes_deduped, status) pairs the
kernel writes back into the request's Info array. -/
inductive IoctlReply where
  | err (errno : Int)
  | ok (resp : List (Nat × Int))
deriving Repr, DecidableEq

/-- Kernel oracle for IoctlFileDedupeRange: round number and current request
determine the reply. -/
abbrev DedupeOracle := Nat → FileDedupeRange → IoctlReply

/-- The kernel writing its per-target reply into the request's Info array:
entry k receives resp[k] as (bytes_deduped, status); entries beyond the reply
(impossible for the real kernel, which writes every entry) are left unchanged. -/
def applyResp : List FileDedupeRangeInfo → List (Nat × Int) → List FileDedupeRangeInfo
  | [], _ => []
  | is, [] => is
  | i :: is, r :: rs =>
    { i with bytes_deduped := r.1, status := r.2 } :: applyResp is rs

/-- First pass of the assertion loop (fideduperange_utils.go lines 97-109):
the bytes_deduped of the first target whose status is SAME, if any. -/
def firstSameBytes : List FileDedupeRangeInfo → Option Nat
  | [] => none
  | i :: is =>
    if i.status = FILE_DEDUPE_RANGE_SAME then some i.bytes_deduped
    else firstSameBytes is

/-- Whether the assertion loop panics: some target with status SAME reports a
bytes_deduped different from the first SAME target's count. -/
def hasVaryingSame (l : List FileDedupeRangeInfo) : Bool :=
  match firstSameBytes l with
  | none => false
  | some b =>
    l.any (fun i => i.status == FILE_DEDUPE_RANGE_SAME && i.bytes_deduped != b)

/-- The writeback loop (fideduperange_utils.go lines 121-131): for each live
target i, add its reported bytes to the caller's record at original position
indices[i] and overwrite that record's status; advance the working copy's
dest_offset by dedupeBytes for SAME targets and collect the positions of all
other targets into the (ascending) drop list.  Returns the updated caller
Info array, the updated working Info array, and the drop list. -/
def writebackLoop (dedupeBytes : Nat) :
    List FileDedupeRangeInfo → List Nat → Nat → List FileDedupeRangeInfo →
    List FileDedupeRangeInfo × List FileDedupeRangeInfo × List Nat
  | [], _, _, vInfo => (vInfo, [], [])
  | l, [], _, vInfo => (vInfo, l, [])
  | ri :: rest, j :: jrest, i, vInfo =>
    let vInfo1 :=
      match vInfo[j]? with
      | some v =>
        vInfo.set j { v with bytes_deduped := v.bytes_deduped + ri.bytes_deduped,
                             status := ri.status }
      | none => vInfo
    if ri.status = FILE_DEDUPE_RANGE_SAME then
      let w := writebackLoop dedupeBytes rest jrest (i + 1) vInfo1
      (w.1, { ri with dest_offset := ri.dest_offset + dedupeBytes } :: w.2.1, w.2.2)
    else
      let w := writebackLoop dedupeBytes rest jrest (i + 1) vInfo1
      (w.1, ri :: w.2.1, i :: w.2.2)

/-- The body of the drop closure's for loop (fideduperange_utils.go lines
64-76), iterating srcIndex over the caller's Info positions; rem counts the
iterations still to run, so srcIndex + rem = len(value.Info).  Evaluating
dropList[dropIndex] or req.Info[srcIndex] out of range is the Go runtime
panic, returned as an error.  (The write req.Info[dstIndex] is always in
range when the read succeeds, because dstIndex <= srcIndex throughout.) -/
def dropLoop (dropList : List Nat) :
    Nat → Nat → Nat → Nat → List FileDedupeRangeInfo → List Nat →
    Except String (Nat × List FileDedupeRangeInfo × List Nat)
  | 0, _, _, dstIndex, reqInfo, indices => .ok (dstIndex, reqInfo, indices)
  | rem + 1, srcIndex, dropIndex, dstIndex, reqInfo, indices =>
    match dropList[dropIndex]? with
    | none => .error "runtime error: index out of range"
    | some d =>
      if srcIndex = d then
        dropLoop dropList rem (srcIndex + 1) (dropIndex + 1) dstIndex reqInfo indices
      else if srcIndex = dstIndex then
        dropLoop dropList rem (srcIndex + 1) dropIndex (dstIndex + 1) reqInfo indices
      else
        match reqInfo[srcIndex]?, indices[srcIndex]? with
        | some ri, some ii =>
          dropLoop dropList rem (srcIndex + 1) dropIndex (dstIndex + 1)
            (reqInfo.set dstIndex ri) (indices.set dstIndex ii)
        | _, _ => .error "runtime error: index out of range"

/-- The drop closure (fideduperange_utils.go lines 60-79): remove the targets
listed in dropList from the working arrays by in-place compaction, then
truncate both arrays to the kept prefix.  valueLen is len(value.Info), the
range of the loop. -/
def dropTargets (valueLen : Nat) (dropList : List Nat)
    (reqInfo : List FileDedupeRangeInfo) (indices : List Nat) :
    Except String (List FileDedupeRangeInfo × List Nat) :=
  if dropList.isEmpty then .ok (reqInfo, indices)
  else
    match dropLoop dropList valueLen 0 0 0 reqInfo indices with
    | .error m => .error m
    | .ok (dstIndex, ri, ii) => .ok (ri.take dstIndex, ii.take dstIndex)

/-- How a run of FileDedupeRangeFull ends: normal return, errno from the
ioctl, a Go panic carrying its message, or (a model artifact) fuel exhaustion
standing for an execution that has not yet terminated. -/
inductive DedupeExit where
  | completed
  | ioctlFailed (errno : Int)
  | fatal (msg : String)
  | outOfFuel
deriving Repr, DecidableEq

/-- One delivered progress callback: (bytesDeduped, bytesLength, exit). -/
abbrev ProgressCall := Nat × Nat × Bool

/-- Observable outcome of a run: the exit kind, the caller's request structure
after the run (none when the caller passed nil), the sequence of progress
calls delivered, the number of FIDEDUPERANGE ioctls issued, and (for the
theorems) the final state of the internal working copy and index map. -/
structure DedupeResult where
  exit : DedupeExit
  value : Option FileDedupeRange
  trace : List ProgressCall
  ioctlCalls : Nat
  finalReq : Option FileDedupeRange
  finalIndices : List Nat
deriving Repr, DecidableEq

/-- Deliver a progress call when the caller supplied a non-nil callback. -/
def emitP (hasProgress : Bool) (t : List ProgressCall) (p : ProgressCall) :
    List ProgressCall :=
  if hasProgress then t ++ [p] else t

/-- The main loop of FileDedupeRangeFull (fideduperange_utils.go lines
84-140), one constructor case per exit path.  Panics run the deferred
progress(0, 0, true) while unwinding, so every exit except fuel exhaustion
appends the final call. -/
def dedupeLoop (oracle : DedupeOracle) (hasProgress : Bool) :
    Nat → FileDedupeRange → FileDedupeRange → List Nat → Nat → Nat →
    List ProgressCall → DedupeResult
  | 0, value, req, indices, _, calls, trace =>
    ⟨.outOfFuel, some value, trace, calls, some req, indices⟩
  | fuel + 1, value, req, indices, round, calls, trace =>
    match oracle round req with
    | .err e =>
      ⟨.ioctlFailed e, some value, emitP hasProgress trace (0, 0, true),
        calls + 1, some req, indices⟩
    | .ok resp =>
      let req1 : FileDedupeRange := { req with info := applyResp req.info resp }
      if hasVaryingSame req1.info then
        ⟨.fatal "found a successfully deduped file, but had varying dedupe bytes",
          some value, emitP hasProgress trace (0, 0, true), calls + 1,
          some req1, indices⟩
      else
        let dedupeBytes := (firstSameBytes req1.info).getD 0
        if dedupeBytes > req1.src_length then
          ⟨.fatal "deduped more bytes than requested",
            some value, emitP hasProgress trace (0, 0, true), calls + 1,
            some req1, indices⟩
        else
          let req2 : FileDedupeRange := { req1 with
            src_offset := req1.src_offset + dedupeBytes,
            src_length := req1.src_length - dedupeBytes }
          let trace1 := emitP hasProgress trace (req2.src_offset, value.src_length, false)
          let wb := writebackLoop dedupeBytes req2.info indices 0 value.info
          let value1 : FileDedupeRange := { value with info := wb.1 }
          let req3 : FileDedupeRange := { req2 with info := wb.2.1 }
          if req3.src_length = 0 then
            ⟨.completed, some value1, emitP hasProgress trace1 (0, 0, true),
              calls + 1, some req3, indices⟩
          else
            match dropTargets value1.info.length wb.2.2 req3.info indices with
            | .error m =>
              ⟨.fatal m, some value1, emitP hasProgress trace1 (0, 0, true),
                calls + 1, some req3, indices⟩
            | .ok (reqInfo2, indices2) =>
              if reqInfo2.isEmpty then
                ⟨.completed, some value1, emitP hasProgress trace1 (0, 0, true),
                  calls + 1, some { req3 with info := reqInfo2 }, indices2⟩
              else
                dedupeLoop oracle hasProgress fuel value1
                  { req3 with info := reqInfo2 } indices2 (round + 1) (calls + 1) trace1

/-- FileDedupeRangeFull (fideduperange_utils.go lines 21-141): register the
deferred final progress call, check the nil/empty preconditions (which panic),
copy the caller's request into a working copy, build the original-index map,
deliver the initial progress call, and enter the loop. -/
def fileDedupeRangeFull (oracle : DedupeOracle) (hasProgress : Bool)
    (value : Option FileDedupeRange) (fuel : Nat) : DedupeResult :=
  match value with
  | none =>
    ⟨.fatal "value is nil", none, emitP hasProgress [] (0, 0, true), 0, none, []⟩
  | some v =>
    if v.info.isEmpty then
      ⟨.fatal "value.Info array empty", some v, emitP hasProgress [] (0, 0, true),
        0, none, []⟩
    else
      let req : FileDedupeRange :=
        { src_offset := v.src_offset, src_length := v.src_length,
          reserved1 := v.reserved1, reserved2 := v.reserved2, info := v.info }
      let indices := List.range v.info.length
      let trace0 := emitP hasProgress [] (0, v.src_length, false)
      dedupeLoop oracle hasProgress fuel v req indices 0 0 trace0

/-- FileDedupeRangeStatusToString (fideduperange_utils.go lines 145-157),
parameterized by the platform's errno description function (unix.Errno.Error). -/
def fileDedupeRangeStatusToString (errnoText : Nat → String) (status : Int) :
    String :=
  if status < 0 then "errno " ++ errnoText (-status).toNat
  else if status = FILE_DEDUPE_RANGE_SAME then "range same"
  else if status = FILE_DEDUPE_RANGE_DIFFERS then "range differs"
  else "unknown status(" ++ toString status ++ ")"

/-- Linux uapi constant FIEMAP_EXTENT_LAST (fiemap.go line 32). -/
def FIEMAP_EXTENT_LAST : Nat := 0x00000001

/-- fiemapIoctlBufferSize (fiemap_utils.go line 16). -/
def fiemapIoctlBufferSize : Nat := 2048 * 8

/-- SizeofRawFiemap (fiemap.go line 49). -/
def SizeofRawFiemap : Nat := 32

/-- SizeofRawFiemapExtent (fiemap.go line 50). -/
def SizeofRawFiemapExtent : Nat := 56

/-- The extent buffer capacity FiemapWalk derives from the transport buffer
size (fiemap_utils.go line 65); evaluates to 292. -/
def fiemapWalkNumExtents : Nat :=
  (fiemapIoctlBufferSize - SizeofRawFiemap) / SizeofRawFiemapExtent

/-- Model of one FIEMAP extent record (fiemap.go lines 73-80); the reserved
fields are inert and omitted. -/
structure FiemapExtent where
  logical : Nat
  physical : Nat
  length : Nat
  flags : Nat
deriving Repr, DecidableEq, Inhabited

/-- The kernel's answer to one FIEMAP query against a file whose full extent
list is extents: the first cap extents whose logical start is at or past the
requested start offset.  For a file whose extents are ascending and
non-overlapping this is exactly the FIEMAP contract FiemapWalk relies on. -/
def fiemapQuery (extents : List FiemapExtent) (start cap : Nat) :
    List FiemapExtent :=
  (extents.filter (fun e => decide (start ≤ e.logical))).take cap

/-- The inner for loop of FiemapWalk (fiemap_utils.go lines 85-94): visit each
extent of the batch in order at consecutive indices, stopping immediately after
an extent for which the callback returns true or whose flags carry
FIEMAP_EXTENT_LAST.  Returns the visits made and whether the walk stopped. -/
def processBatch (cb : Nat → FiemapExtent → Bool) :
    Nat → List FiemapExtent → List (Nat × FiemapExtent) × Bool
  | _, [] => ([], false)
  | idx, e :: rest =>
    if cb idx e then ([(idx, e)], true)
    else if e.flags.land FIEMAP_EXTENT_LAST ≠ 0 then ([(idx, e)], true)
    else
      let r := processBatch cb (idx + 1) rest
      ((idx, e) :: r.1, r.2)

/-- Observable outcome of a FiemapWalk run: the callback invocations in
order, the start offset of every FIEMAP query issued, and whether the walk
returned (false only for fuel exhaustion, the model's stand-in for an
execution that has not yet terminated). -/
structure WalkResult where
  visits : List (Nat × FiemapExtent)
  queryStarts : List Nat
  finished : Bool
deriving Repr, DecidableEq

/-- The outer loop of FiemapWalk (fiemap_utils.go lines 70-97): query from the
current start offset, return when the query maps zero extents, process the
batch, and otherwise continue from the last extent's logical start plus its
length, advancing the global index offset by the batch size. -/
def fiemapWalkLoop (query : Nat → List FiemapExtent)
    (cb : Nat → FiemapExtent → Bool) :
    Nat → Nat → Nat → WalkResult
  | 0, _, _ => ⟨[], [], false⟩
  | fuel + 1, idxOff, start =>
    let batch := query start
    if batch.isEmpty then ⟨[], [start], true⟩
    else
      let pr := processBatch cb idxOff batch
      if pr.2 then ⟨pr.1, [start], true⟩
      else
        let lastE := batch.getLastD default
        let next := fiemapWalkLoop query cb fuel (idxOff + batch.length)
          (lastE.logical + lastE.length)
        ⟨pr.1 ++ next.visits, start :: next.queryStarts, next.finished⟩

/-- FiemapWalk (fiemap_utils.go lines 62-98) over a file whose extent list is
extents, with the per-round buffer capacity cap as a parameter (the source
fixes cap = fiemapWalkNumExtents = 292; the spec's scenario D uses 4). -/
def fiemapWalk (extents : List FiemapExtent) (cap : Nat)
    (cb : Nat → FiemapExtent → Bool) (fuel : Nat) : WalkResult :=
  fiemapWalkLoop (fun start => fiemapQuery extents start cap) cb fuel 0 0

/-- The alignment guard of IoctlFiemap (fiemap.go lines 87-103): the transport
buffer's allocator-chosen base address must be 8-byte aligned; otherwise the
function panics before issuing the ioctl.  The kernel call itself is abstract;
the second component counts how many ioctls were issued. -/
def ioctlFiemap {α : Type} (bufAddr : Nat) (kernel : α → α) (value : α) :
    Except String α × Nat :=
  if bufAddr % 8 ≠ 0 then
    (.error "buffer for fiemap ioctl is not 64 bit aligned", 0)
  else
    (.ok (kernel value), 1)

/-- A kernel oracle is well behaved when it answers each target of the request
and never reports more bytes deduped than the requested length of the call.
This is the FIDEDUPERANGE contract the engine's own assertions assume. -/
def WFOracle (oracle : DedupeOracle) : Prop :=
  ∀ r q resp, oracle r q = .ok resp →
    resp.length = q.info.length ∧ ∀ p ∈ resp, p.1 ≤ q.src_length

/-- Every round either drops every target (no SAME status at all) or reports
a positive byte count for some SAME target: the progress condition under which
the loop terminates. -/
def GoodRounds (oracle : DedupeOracle) : Prop :=
  ∀ r q resp, oracle r q = .ok resp →
    (∀ p ∈ resp, p.2 ≠ FILE_DEDUPE_RANGE_SAME) ∨
    (∃ p ∈ resp, p.2 = FILE_DEDUPE_RANGE_SAME ∧ 0 < p.1)

/-- How one caller-visible target record may change across a run: the handle,
destination offset and reserved field are untouched and the accumulated byte
count never decreases. -/
def InfoEvolves (a b : FileDedupeRangeInfo) : Prop :=
  b.dest_fd = a.dest_fd ∧ b.dest_offset = a.dest_offset ∧
  b.reserved = a.reserved ∧ a.bytes_deduped ≤ b.bytes_deduped

/-- InfoEvolves lifted to optional lookups: positions exist before iff after. -/
def OptEvolves : Option FileDedupeRangeInfo → Option FileDedupeRangeInfo → Prop
  | none, none => True
  | some a, some b => InfoEvolves a b
  | _, _ => False

/-- Reference compaction: the elements of a list whose positions (counted from
k) are not in dl.  A successful drop with a full-length working array produces
exactly this. -/
def keptList {α : Type} (dl : List Nat) : Nat → List α → List α
  | _, [] => []
  | k, a :: l =>
    if k ∈ dl then keptList dl (k + 1) l else a :: keptList dl (k + 1) l

/-- The loop invariant of FileDedupeRangeFull relating the caller's structure,
the working copy and the original-index map: the index map is duplicate-free
and paired with the working targets; offset bookkeeping is exact (processed
bytes equal original length minus remaining length); every live target's
accumulated count plus the remaining length equals the original length; every
already-dropped target's accumulated count is at most the original length. -/
def DedupeInv (value req : FileDedupeRange) (indices : List Nat) : Prop :=
  indices.Nodup ∧
  indices.length = req.info.length ∧
  req.info.length ≤ value.info.length ∧
  req.src_length ≤ value.src_length ∧
  req.src_offset + req.src_length = value.src_offset + value.src_length ∧
  (∀ (m j : Nat), indices[m]? = some j → j < value.info.length ∧
    ∀ v, value.info[j]? = some v →
      v.bytes_deduped + req.src_length = value.src_length) ∧
  (∀ j, j < value.info.length → j ∉ indices →
    ∀ v, value.info[j]? = some v → v.bytes_deduped ≤ value.src_length)

/-- The hypothesis of the extent-walk claims: the file's extents are ascending
and non-overlapping, with positive lengths. -/
def ExtentsWF (l : List FiemapExtent) : Prop :=
  l.Pairwise (fun a b => a.logical + a.length ≤ b.logical) ∧
  ∀ e ∈ l, 0 < e.length

/-- A stand-in for the platform's errno rendering, used by witnesses. -/
def sampleErrnoText : Nat → String := fun n => "sample errno " ++ toString n

/-- Concrete request: three byte-identical-prefix targets, 10 source bytes. -/
def c1Value : FileDedupeRange :=
  { src_offset := 0, src_length := 10, reserved1 := 0, reserved2 := 0,
    info := [{ dest_fd := 10, dest_offset := 0, bytes_deduped := 0, status := 0 },
             { dest_fd := 11, dest_offset := 0, bytes_deduped := 0, status := 0 },
             { dest_fd := 12, dest_offset := 0, bytes_deduped := 0, status := 0 }] }

/-- Concrete kernel behavior: in the first round targets 0 and 2 report SAME
with 4 bytes while target 1 (a middle position) reports DIFFERS. -/
def c1Oracle : DedupeOracle := fun round _ =>
  if round = 0 then
    .ok [(4, FILE_DEDUPE_RANGE_SAME), (4, FILE_DEDUPE_RANGE_DIFFERS),
         (4, FILE_DEDUPE_RANGE_SAME)]
  else .ok []

/-- Concrete request: a single 4-byte target. -/
def c2Value : FileDedupeRange :=
  { src_offset := 0, src_length := 4, reserved1 := 0, reserved2 := 0,
    info := [{ dest_fd := 10, dest_offset := 0, bytes_deduped := 0, status := 0 }] }

/-- Concrete kernel behavior: the whole range dedupes in one round. -/
def c2Oracle : DedupeOracle := fun _ _ => .ok [(4, FILE_DEDUPE_RANGE_SAME)]

/-- Concrete request with source length 0 and an initial target status 42. -/
def c3Value : FileDedupeRange :=
  { src_offset := 0, src_length := 0, reserved1 := 0, reserved2 := 0,
    info := [{ dest_fd := 10, dest_offset := 0, bytes_deduped := 7, status := 42 }] }

/-- Concrete kernel behavior: SAME with zero bytes (a zero-length request). -/
def c3Oracle : DedupeOracle := fun _ _ => .ok [(0, FILE_DEDUPE_RANGE_SAME)]

/-- Concrete request with two targets, for the invariant-violation claims. -/
def c8Value : FileDedupeRange :=
  { src_offset := 0, src_length := 10, reserved1 := 0, reserved2 := 0,
    info := [{ dest_fd := 10, dest_offset := 0, bytes_deduped := 0, status := 0 },
             { dest_fd := 11, dest_offset := 0, bytes_deduped := 0, status := 0 }] }

/-- Kernel reply where two SAME targets disagree on the byte count. -/
def c8VaryResp : List (Nat × Int) :=
  [(4, FILE_DEDUPE_RANGE_SAME), (5, FILE_DEDUPE_RANGE_SAME)]

/-- Oracle producing the disagreeing SAME reply. -/
def c8VaryOracle : DedupeOracle := fun _ _ => .ok c8VaryResp

/-- Kernel reply claiming more bytes deduped than the request asked for. -/
def c8OverResp : List (Nat × Int) := [(20, FILE_DEDUPE_RANGE_SAME)]

/-- Oracle producing the over-long reply. -/
def c8OverOracle : DedupeOracle := fun _ _ => .ok c8OverResp

/-- A request whose destination list is empty (precondition violation). -/
def c10EmptyValue : FileDedupeRange :=
  { src_offset := 0, src_length := 8, reserved1 := 0, reserved2 := 0,
    info := [] }

/-- A 10-extent file layout, 100 bytes per extent, last extent flagged LAST:
the concrete layout of the spec's scenario D. -/
def ext10 : List FiemapExtent :=
  [{ logical := 0, physical := 5000, length := 100, flags := 0 },
   { logical := 100, physical := 5100, length := 100, flags := 0 },
   { logical := 200, physical := 5200, length := 100, flags := 0 },
   { logical := 300, physical := 5300, length := 100, flags := 0 },
   { logical := 400, physical := 5400, length := 100, flags := 0 },
   { logical := 500, physical := 5500, length := 100, flags := 0 },
   { logical := 600, physical := 5600, length := 100, flags := 0 },
   { logical := 700, physical := 5700, length := 100, flags := 0 },
   { logical := 800, physical := 5800, length := 100, flags := 0 },
   { logical := 900, physical := 5900, length := 100, flags := 1 }]

/-- A kernel model that always answers: zero bytes DIFFERS for a zero-length
request, one byte SAME otherwise.  It satisfies both the FIDEDUPERANGE
contract (WFOracle) and the progress condition (GoodRounds). -/
def c6Oracle : DedupeOracle := fun _ q =>
  .ok (q.info.map (fun _ =>
    if q.src_length = 0 then ((0 : Nat), FILE_DEDUPE_RANGE_DIFFERS)
    else ((1 : Nat), FILE_DEDUPE_RANGE_SAME)))

/-- A working request whose live target set is already empty, as it can arise
mid-loop; used to exercise the empty-live-set completion conjunct. -/
def c2EmptyReq : FileDedupeRange :=
  { src_offset := 0, src_length := 4, reserved1 := 0, reserved2 := 0,
    info := [] }

/-- C1: dropping a target whose position is not the final index of the
caller's Info array makes the drop compaction loop read dropList past its end
(fideduperange_utils.go line 67 evaluates dropList[dropIndex] unguarded while
iterating over all of value.Info), so the run aborts with the Go runtime
index-out-of-range panic instead of continuing with the remaining live
targets.  This refutes the claim that the run continues for every subset and
order of dropped targets; here the first round drops only the middle target
of three. -/
theorem c1_drop_midlist_panics :
    (fileDedupeRangeFull c1Oracle true (some c1Value) 5).exit =
      .fatal "runtime error: index out of range" := by
  rfl

/-- C2 counterexample: the deferred final progress call is progress(0, 0,
true), so after a run that processed 4 bytes the delivered bytesProcessed
sequence is 0, 4, 0, which is not monotonically non-decreasing. -/
theorem c2_final_call_breaks_monotonicity :
    (fileDedupeRangeFull c2Oracle true (some c2Value) 5).trace =
      [(0, 4, false), (4, 4, false), (0, 0, true)] ∧
    ¬ List.Chain' (· ≤ ·)
      ((fileDedupeRangeFull c2Oracle true (some c2Value) 5).trace.map
        (fun p => p.1)) := by
  refine ⟨rfl, ?_⟩
  rw [show (fileDedupeRangeFull c2Oracle true (some c2Value) 5).trace =
    [(0, 4, false), (4, 4, false), (0, 0, true)] from rfl]
  simp [List.chain'_cons]

/-- C3 counterexample: with source length 0 the loop still issues one
FIDEDUPERANGE ioctl before any length check (the claim demands zero), and the
target's status is overwritten by the round's reported status (42 becomes
SAME = 0), not left at its initial value. -/
theorem c3_zero_length_still_calls_ioctl :
    (fileDedupeRangeFull c3Oracle true (some c3Value) 5).ioctlCalls = 1 ∧
    (fileDedupeRangeFull c3Oracle true (some c3Value) 5).value =
      some { c3Value with
        info := [{ dest_fd := 10, dest_offset := 0, bytes_deduped := 7,
                   status := FILE_DEDUPE_RANGE_SAME }] } := by
  exact ⟨rfl, rfl⟩

/-- C4 counterexample: status code 0 is FILE_DEDUPE_RANGE_SAME in the Linux
uapi, so the formatter renders it as the "same" outcome, not "differs" as
the claim states. -/
theorem c4_status_zero_renders_same :
    fileDedupeRangeStatusToString sampleErrnoText 0 = "range same" ∧
    fileDedupeRangeStatusToString sampleErrnoText 0 ≠ "range differs" := by
  exact ⟨rfl, by decide⟩

/-- C4 amended: FileDedupeRangeStatusToString maps status 0 (SAME) to the
"same" outcome, status 1 (DIFFERS) to the "differs" outcome, and every
negative status to the platform errno message for its negation. -/
theorem c4_status_to_string_spec (errnoText : Nat → String) (status : Int) :
    fileDedupeRangeStatusToString errnoText 0 = "range same" ∧
    fileDedupeRangeStatusToString errnoText 1 = "range differs" ∧
    (status < 0 →
      fileDedupeRangeStatusToString errnoText status =
        "errno " ++ errnoText (-status).toNat) := by
  refine ⟨rfl, rfl, fun h => ?_⟩
  unfold fileDedupeRangeStatusToString
  rw [if_pos h]

/-- C4 witness: the amended mapping evaluated at the negative status -2. -/
theorem c4_status_to_string_spec_witness :
    fileDedupeRangeStatusToString sampleErrnoText (-2) =
      "errno " ++ sampleErrnoText 2 := by
  exact (c4_status_to_string_spec sampleErrnoText (-2)).2.2 (by decide)

/-- C10: a nil request or an empty destination list panics (a fatal abort,
not an error return), and because the final progress call is deferred before
those checks it is still delivered, once, during the abort. -/
theorem c10_precondition_panics_deliver_final (oracle : DedupeOracle)
    (fuel : Nat) :
    ((fileDedupeRangeFull oracle true none fuel).exit = .fatal "value is nil" ∧
     (fileDedupeRangeFull oracle true none fuel).trace = [(0, 0, true)]) ∧
    ∀ v : FileDedupeRange, v.info = [] →
      (fileDedupeRangeFull oracle true (some v) fuel).exit =
        .fatal "value.Info array empty" ∧
      (fileDedupeRangeFull oracle true (some v) fuel).trace = [(0, 0, true)] := by
  refine ⟨⟨rfl, rfl⟩, fun v hv => ?_⟩
  have hEmpty : v.info.isEmpty = true := by simp [hv]
  simp [fileDedupeRangeFull, hEmpty, emitP]

/-- C8: internal invariant violations abort with a fatal panic, a kind
distinct from both normal completion and recoverable ioctl errors: two SAME
targets disagreeing on bytes deduped is fatal, a round byte count exceeding
the remaining requested length is fatal, and a misaligned transport buffer
makes IoctlFiemap abort before issuing any ioctl (the call counter stays 0). -/
theorem c8_invariant_violations_abort (oracle : DedupeOracle)
    (value : FileDedupeRange) (fuel : Nat) (resp : List (Nat × Int))
    (hfuel : 1 ≤ fuel) (hne : value.info ≠ [])
    (hresp : oracle 0 value = .ok resp) :
    (hasVaryingSame (applyResp value.info resp) = true →
      (fileDedupeRangeFull oracle true (some value) fuel).exit =
        .fatal "found a successfully deduped file, but had varying dedupe bytes") ∧
    (hasVaryingSame (applyResp value.info resp) = false →
      value.src_length < (firstSameBytes (applyResp value.info resp)).getD 0 →
      (fileDedupeRangeFull oracle true (some value) fuel).exit =
        .fatal "deduped more bytes than requested") ∧
    (∀ m e, (DedupeExit.fatal m ≠ .completed) ∧
      (DedupeExit.fatal m ≠ .ioctlFailed e)) ∧
    ∀ (α : Type) (bufAddr : Nat) (kernel : α → α) (v : α), bufAddr % 8 ≠ 0 →
      ioctlFiemap bufAddr kernel v =
        (.error "buffer for fiemap ioctl is not 64 bit aligned", 0) := by
  obtain ⟨k, rfl⟩ : ∃ k, fuel = k + 1 := by
    cases fuel with
    | zero => omega
    | succ k => exact ⟨k, rfl⟩
  have hEmpty : value.info.isEmpty = false := by
    simp [List.isEmpty_iff, hne]
  have hreq : FileDedupeRange.mk value.src_offset value.src_length
      value.reserved1 value.reserved2 value.info = value := rfl
  refine ⟨fun hvary => ?_, fun hnovary hover => ?_, ?_, ?_⟩
  · simp only [fileDedupeRangeFull, hEmpty, Bool.false_eq_true, if_false,
      dedupeLoop, hreq, hresp, hvary, if_true]
  · simp only [fileDedupeRangeFull, hEmpty, Bool.false_eq_true, if_false,
      dedupeLoop, hreq, hresp, hnovary, Bool.false_eq_true, if_false]
    rw [if_pos]
    exact hover
  · intro m e
    exact ⟨by simp, by simp⟩
  · intro α bufAddr kernel v h
    simp [ioctlFiemap, h]

/-- C8 witness: the three aborts evaluated at concrete inputs: a varying SAME
reply for two targets, a 20-byte reply to a 4-byte request, and an odd buffer
address. -/
theorem c8_invariant_violations_abort_witness :
    (fileDedupeRangeFull c8VaryOracle true (some c8Value) 3).exit =
      .fatal "found a successfully deduped file, but had varying dedupe bytes" ∧
    (fileDedupeRangeFull c8OverOracle true (some c2Value) 3).exit =
      .fatal "deduped more bytes than requested" ∧
    ioctlFiemap 4 (fun n : Nat => n) 0 =
      (.error "buffer for fiemap ioctl is not 64 bit aligned", 0) := by
  refine ⟨?_, ?_, ?_⟩
  · exact (c8_invariant_violations_abort c8VaryOracle c8Value 3 c8VaryResp
      (by decide) (by decide) rfl).1 (by decide)
  · exact (c8_invariant_violations_abort c8OverOracle c2Value 3 c8OverResp
      (by decide) (by decide) rfl).2.1 (by decide) (by decide)
  · exact (c8_invariant_violations_abort c8VaryOracle c8Value 3 c8VaryResp
      (by decide) (by decide) rfl).2.2.2 Nat 4 (fun n => n) 0 (by decide)

/-- C10 witness: the empty-destination precondition panic at a concrete
request, with the final progress call delivered. -/
theorem c10_precondition_panics_deliver_final_witness :
    (fileDedupeRangeFull c2Oracle true (some c10EmptyValue) 3).exit =
      .fatal "value.Info array empty" ∧
    (fileDedupeRangeFull c2Oracle true (some c10EmptyValue) 3).trace =
      [(0, 0, true)] := by
  exact (c10_precondition_panics_deliver_final c2Oracle 3).2 c10EmptyValue rfl

theorem optEvolves_refl (o : Option FileDedupeRangeInfo) : OptEvolves o o := by
  cases o with
  | none => trivial
  | some a => exact ⟨rfl, rfl, rfl, le_refl _⟩

theorem optEvolves_trans : ∀ {a b c : Option FileDedupeRangeInfo},
    OptEvolves a b → OptEvolves b c → OptEvolves a c
  | none, none, none, _, h2 => h2
  | some _, some _, some _, h1, h2 =>
    ⟨h2.1.trans h1.1, h2.2.1.trans h1.2.1, h2.2.2.1.trans h1.2.2.1,
      h1.2.2.2.trans h2.2.2.2⟩
  | none, some _, _, h1, _ => nomatch h1
  | some _, none, _, h1, _ => nomatch h1
  | none, none, some _, _, h2 => nomatch h2
  | some _, some _, none, _, h2 => nomatch h2

theorem applyResp_length (l : List FileDedupeRangeInfo) :
    ∀ (r : List (Nat × Int)), (applyResp l r).length = l.length := by
  induction l with
  | nil => intro r; simp [applyResp]
  | cons i is ih =>
    intro r
    cases r with
    | nil => simp [applyResp]
    | cons p ps => simp [applyResp, ih]

theorem applyResp_getElem? (l : List FileDedupeRangeInfo) :
    ∀ (r : List (Nat × Int)) (k : Nat),
    (applyResp l r)[k]? =
      (l[k]?).map (fun i =>
        match r[k]? with
        | some p => { i with bytes_deduped := p.1, status := p.2 }
        | none => i)
  := by
  induction l with
  | nil => intro r k; simp [applyResp]
  | cons i is ih =>
    intro r k
    cases r with
    | nil =>
      cases k with
      | zero => simp [applyResp]
      | succ k =>
        simp only [applyResp, List.getElem?_cons_succ, List.getElem?_nil]
        cases is[k]? <;> rfl
    | cons p ps =>
      cases k with
      | zero => simp [applyResp]
      | succ k =>
        simpa only [applyResp, List.getElem?_cons_succ] using ih ps k

theorem writebackLoop_fst_length (d : Nat) (ri : List FileDedupeRangeInfo) :
    ∀ (idx : List Nat) (i : Nat) (v : List FileDedupeRangeInfo),
    ((writebackLoop d ri idx i v).1).length = v.length := by
  induction ri with
  | nil => intro idx i v; simp [writebackLoop]
  | cons r0 rest ih =>
    intro idx i v
    cases idx with
    | nil => simp [writebackLoop]
    | cons j jrest =>
      rcases hv : v[j]? with _ | x <;>
        by_cases hs : r0.status = FILE_DEDUPE_RANGE_SAME <;>
          simp [writebackLoop, hv, hs, ih, List.length_set]

theorem set_accum_evolves (v : List FileDedupeRangeInfo) (j0 : Nat)
    (x : FileDedupeRangeInfo) (b : Nat) (st : Int) (hv : v[j0]? = some x)
    (j : Nat) :
    OptEvolves v[j]?
      ((v.set j0
        { x with bytes_deduped := x.bytes_deduped + b, status := st })[j]?) := by
  by_cases hj : j0 = j
  · subst hj
    have hlt : j0 < v.length := by
      rcases List.getElem?_eq_some_iff.mp hv with ⟨h, _⟩
      exact h
    rw [List.getElem?_set_self hlt, hv]
    exact ⟨rfl, rfl, rfl, Nat.le_add_right _ _⟩
  · rw [List.getElem?_set_ne hj]
    exact optEvolves_refl _

theorem writebackLoop_fst_evolves (d : Nat) (ri : List FileDedupeRangeInfo) :
    ∀ (idx : List Nat) (i : Nat) (v : List FileDedupeRangeInfo) (j : Nat),
    OptEvolves v[j]? ((writebackLoop d ri idx i v).1)[j]? := by
  induction ri with
  | nil =>
    intro idx i v j
    simp only [writebackLoop]
    exact optEvolves_refl _
  | cons r0 rest ih =>
    intro idx i v j
    cases idx with
    | nil =>
      simp only [writebackLoop]
      exact optEvolves_refl _
    | cons j0 jrest =>
      rcases hv : v[j0]? with _ | x
      · simp only [writebackLoop, hv]
        split <;> exact ih jrest (i + 1) v j
      · simp only [writebackLoop, hv]
        split <;>
          exact optEvolves_trans
            (set_accum_evolves v j0 x r0.bytes_deduped r0.status hv j)
            (ih jrest (i + 1) _ j)

theorem writebackLoop_fst_not_mem (d : Nat) (ri : List FileDedupeRangeInfo) :
    ∀ (idx : List Nat) (i : Nat) (v : List FileDedupeRangeInfo) (j : Nat),
    j ∉ idx → ((writebackLoop d ri idx i v).1)[j]? = v[j]? := by
  induction ri with
  | nil => intro idx i v j _; simp [writebackLoop]
  | cons r0 rest ih =>
    intro idx i v j hj
    cases idx with
    | nil => simp [writebackLoop]
    | cons j0 jrest =>
      have hne : j0 ≠ j := fun h => hj (h ▸ List.mem_cons_self j0 jrest)
      have hjr : j ∉ jrest := fun h => hj (List.mem_cons_of_mem _ h)
      rcases hv : v[j0]? with _ | x
      · simp only [writebackLoop, hv]
        split <;> rw [ih jrest (i + 1) v j hjr]
      · simp only [writebackLoop, hv]
        split <;>
          rw [ih jrest (i + 1) _ j hjr, List.getElem?_set_ne hne]

theorem writebackLoop_fst_pair (d : Nat) (ri : List FileDedupeRangeInfo) :
    ∀ (idx : List Nat) (i : Nat) (v : List FileDedupeRangeInfo)
    (k j : Nat) (r0 : FileDedupeRangeInfo), idx.Nodup →
    idx[k]? = some j → ri[k]? = some r0 →
    ((writebackLoop d ri idx i v).1)[j]? =
      (v[j]?).map (fun x =>
        { x with bytes_deduped := x.bytes_deduped + r0.bytes_deduped,
                 status := r0.status }) := by
  induction ri with
  | nil => intro idx i v k j r0 _ _ hk; simp at hk
  | cons rh rest ih =>
    intro idx i v k j r0 hnd hk hr
    cases idx with
    | nil => simp at hk
    | cons j0 jrest =>
      cases k with
      | zero =>
        simp only [List.getElem?_cons_zero, Option.some_inj] at hk hr
        subst hk; subst hr
        have hjr : j0 ∉ jrest := (List.nodup_cons.mp hnd).1
        rcases hv : v[j0]? with _ | x
        · simp only [writebackLoop, hv]
          split <;>
            · rw [writebackLoop_fst_not_mem d rest jrest (i + 1) v j0 hjr, hv]
              rfl
        · have hlt : j0 < v.length := by
            rcases List.getElem?_eq_some_iff.mp hv with ⟨h, _⟩
            exact h
          simp only [writebackLoop, hv]
          split <;>
            · rw [writebackLoop_fst_not_mem d rest jrest (i + 1) _ j0 hjr,
                List.getElem?_set_self hlt]
              rfl
      | succ k =>
        simp only [List.getElem?_cons_succ] at hk hr
        have hnd' : jrest.Nodup := (List.nodup_cons.mp hnd).2
        have hj0 : j0 ∉ jrest := (List.nodup_cons.mp hnd).1
        have hne : j0 ≠ j := by
          intro h
          exact hj0 (h ▸ List.getElem?_mem hk)
        rcases hv : v[j0]? with _ | x
        · simp only [writebackLoop, hv]
          split <;> rw [ih jrest (i + 1) v k j r0 hnd' hk hr]
        · simp only [writebackLoop, hv]
          split <;>
            rw [ih jrest (i + 1) _ k j r0 hnd' hk hr,
              List.getElem?_set_ne hne]

theorem optEvolves_frame : ∀ {a b : Option FileDedupeRangeInfo},
    OptEvolves a b →
    b.map (fun x => (x.dest_fd, x.dest_offset, x.reserved)) =
      a.map (fun x => (x.dest_fd, x.dest_offset, x.reserved))
  | none, none, _ => rfl
  | some _, some _, h => by simp [h.1, h.2.1, h.2.2.1]
  | none, some _, h => nomatch h
  | some _, none, h => nomatch h

theorem dedupeLoop_value_evolves (oracle : DedupeOracle) (hasP : Bool)
    (fuel : Nat) :
    ∀ (value req : FileDedupeRange) (indices : List Nat)
      (round calls : Nat) (trace : List ProgressCall),
    ∃ v', (dedupeLoop oracle hasP fuel value req indices round calls
        trace).value = some v' ∧
      v'.src_offset = value.src_offset ∧ v'.src_length = value.src_length ∧
      v'.reserved1 = value.reserved1 ∧ v'.reserved2 = value.reserved2 ∧
      v'.info.length = value.info.length ∧
      ∀ j : Nat, OptEvolves value.info[j]? v'.info[j]? := by
  induction fuel with
  | zero =>
    intro value req indices round calls trace
    exact ⟨value, rfl, rfl, rfl, rfl, rfl, rfl, fun j => optEvolves_refl _⟩
  | succ fuel ih =>
    intro value req indices round calls trace
    cases horacle : oracle round req with
    | err e =>
      exact ⟨value, by simp [dedupeLoop, horacle], rfl, rfl, rfl, rfl, rfl,
        fun j => optEvolves_refl _⟩
    | ok resp =>
      simp only [dedupeLoop, horacle]
      split
      · exact ⟨value, rfl, rfl, rfl, rfl, rfl, rfl, fun j => optEvolves_refl _⟩
      · split
        · exact ⟨value, rfl, rfl, rfl, rfl, rfl, rfl, fun j => optEvolves_refl _⟩
        · split
          · exact ⟨_, rfl, rfl, rfl, rfl, rfl,
              writebackLoop_fst_length _ _ _ _ _,
              fun j => writebackLoop_fst_evolves _ _ _ _ _ j⟩
          · split
            · exact ⟨_, rfl, rfl, rfl, rfl, rfl,
                writebackLoop_fst_length _ _ _ _ _,
                fun j => writebackLoop_fst_evolves _ _ _ _ _ j⟩
            · split
              · exact ⟨_, rfl, rfl, rfl, rfl, rfl,
                  writebackLoop_fst_length _ _ _ _ _,
                  fun j => writebackLoop_fst_evolves _ _ _ _ _ j⟩
              · obtain ⟨v', h0, h1, h2, h3, h4, h5, h6⟩ :=
                  ih _ _ _ (round + 1) (calls + 1) _
                exact ⟨v', h0, h1, h2, h3, h4,
                  h5.trans (writebackLoop_fst_length _ _ _ _ _),
                  fun j => optEvolves_trans
                    (writebackLoop_fst_evolves _ _ _ _ _ j) (h6 j)⟩

/-- C9: on every exit path the caller's source offset, source length and both
reserved fields are unchanged, the Info array keeps its length, and every
target record keeps its destination handle, destination offset and reserved
field: the only caller-visible writes are the per-target accumulated byte
count and status slots. -/
theorem c9_caller_request_frame (oracle : DedupeOracle) (hasP : Bool)
    (value : FileDedupeRange) (fuel : Nat) :
    ∃ v', (fileDedupeRangeFull oracle hasP (some value) fuel).value =
        some v' ∧
      v'.src_offset = value.src_offset ∧ v'.src_length = value.src_length ∧
      v'.reserved1 = value.reserved1 ∧ v'.reserved2 = value.reserved2 ∧
      v'.info.length = value.info.length ∧
      ∀ j : Nat,
        (v'.info[j]?).map (fun x => (x.dest_fd, x.dest_offset, x.reserved)) =
          (value.info[j]?).map
            (fun x => (x.dest_fd, x.dest_offset, x.reserved)) := by
  simp only [fileDedupeRangeFull]
  split
  · exact ⟨value, rfl, rfl, rfl, rfl, rfl, rfl, fun j => rfl⟩
  · obtain ⟨v', h0, h1, h2, h3, h4, h5, h6⟩ :=
      dedupeLoop_value_evolves oracle hasP fuel value _ _ 0 0 _
    exact ⟨v', h0, h1, h2, h3, h4, h5, fun j => optEvolves_frame (h6 j)⟩

theorem chain_snoc (t : List ProgressCall) (v len : Nat) (b : Bool)
    (hc : List.Chain' (· ≤ ·) (t.map (fun p => p.1)))
    (hl : ∀ x ∈ (t.map (fun p => p.1)).getLast?, x ≤ v) :
    List.Chain' (· ≤ ·) ((t ++ [(v, len, b)]).map (fun p => p.1)) := by
  rw [List.map_append]
  refine List.Chain'.append hc (List.chain'_singleton v) ?_
  intro x hx y hy
  simp only [List.map_cons, List.map_nil, List.head?_cons, Option.mem_def,
    Option.some_inj] at hy
  exact hy ▸ hl x hx

theorem nonfinal_snoc (t : List ProgressCall) (v len : Nat)
    (h : ∀ p ∈ t, p.2.2 = false) :
    ∀ p ∈ t ++ [(v, len, false)], p.2.2 = false := by
  intro p hp
  rcases List.mem_append.mp hp with h1 | h1
  · exact h p h1
  · simp only [List.mem_singleton] at h1
    subst h1
    rfl

theorem dedupeLoop_trace (oracle : DedupeOracle) (fuel : Nat) :
    ∀ (value req : FileDedupeRange) (indices : List Nat) (round calls : Nat)
      (trace : List ProgressCall),
    (∀ p ∈ trace, p.2.2 = false) →
    List.Chain' (· ≤ ·) (trace.map (fun p => p.1)) →
    (∀ x ∈ (trace.map (fun p => p.1)).getLast?, x ≤ req.src_offset) →
    (dedupeLoop oracle true fuel value req indices round calls
        trace).exit = .outOfFuel ∨
    ∃ t, (dedupeLoop oracle true fuel value req indices round calls
        trace).trace = t ++ [(0, 0, true)] ∧
      (∀ p ∈ t, p.2.2 = false) ∧
      List.Chain' (· ≤ ·) (t.map (fun p => p.1)) := by
  induction fuel with
  | zero =>
    intro value req indices round calls trace _ _ _
    exact Or.inl rfl
  | succ fuel ih =>
    intro value req indices round calls trace hnf hch hlast
    cases horacle : oracle round req with
    | err e =>
      refine Or.inr ⟨trace, ?_, hnf, hch⟩
      simp [dedupeLoop, horacle, emitP]
    | ok resp =>
      simp only [dedupeLoop, horacle]
      have hoff : req.src_offset ≤
          req.src_offset + (firstSameBytes (applyResp req.info resp)).getD 0 :=
        Nat.le_add_right _ _
      split
      · exact Or.inr ⟨trace, by simp [emitP], hnf, hch⟩
      · split
        · exact Or.inr ⟨trace, by simp [emitP], hnf, hch⟩
        · have hnf1 := nonfinal_snoc trace
            (req.src_offset + (firstSameBytes (applyResp req.info resp)).getD 0)
            value.src_length hnf
          have hch1 := chain_snoc trace
            (req.src_offset + (firstSameBytes (applyResp req.info resp)).getD 0)
            value.src_length false hch
            (fun x hx => (hlast x hx).trans hoff)
          have hlast1 : ∀ x ∈ (((trace ++
              [(req.src_offset +
                (firstSameBytes (applyResp req.info resp)).getD 0,
                value.src_length, false)]).map (fun p => p.1)).getLast?),
              x ≤ req.src_offset +
                (firstSameBytes (applyResp req.info resp)).getD 0 := by
            intro x hx
            rw [List.map_append, List.map_cons, List.map_nil,
              List.getLast?_concat] at hx
            simp only [Option.mem_def, Option.some_inj] at hx
            exact hx ▸ le_refl _
          split
          · exact Or.inr ⟨_, by simp [emitP], hnf1, hch1⟩
          · split
            · exact Or.inr ⟨_, by simp [emitP], hnf1, hch1⟩
            · split
              · exact Or.inr ⟨_, by simp [emitP], hnf1, hch1⟩
              · exact ih _ _ _ _ _ _ hnf1 hch1 hlast1

/-- C2 amended: for every invocation with a non-nil progress callback that
terminates, the final call progress(0, 0, true) is delivered exactly once, as
the last call, on every exit path; the bytesProcessed values are monotonically
non-decreasing across the non-final calls (the final call itself always
carries bytesProcessed = 0, which is what refutes monotonicity of the full
sequence). -/
theorem c2_final_once_nonfinal_monotone (oracle : DedupeOracle)
    (value : Option FileDedupeRange) (fuel : Nat)
    (hne : (fileDedupeRangeFull oracle true value fuel).exit ≠ .outOfFuel) :
    ∃ t, (fileDedupeRangeFull oracle true value fuel).trace =
        t ++ [(0, 0, true)] ∧
      (∀ p ∈ t, p.2.2 = false) ∧
      List.Chain' (· ≤ ·) (t.map (fun p => p.1)) := by
  cases value with
  | none => exact ⟨[], rfl, by simp, List.chain'_nil⟩
  | some v =>
    simp only [fileDedupeRangeFull] at hne ⊢
    split
    · exact ⟨[], by simp [emitP], by simp, by simp⟩
    · rename_i hemp
      rw [if_neg hemp] at hne
      have h1 : ∀ p ∈ emitP true [] (0, v.src_length, false),
          p.2.2 = false := by simp [emitP]
      have h2 : List.Chain' (· ≤ ·)
          ((emitP true [] (0, v.src_length, false)).map (fun p => p.1)) := by
        simp [emitP]
      have h3 : ∀ x ∈ (((emitP true []
          ((0 : Nat), v.src_length, false)).map (fun p => p.1)).getLast?),
          x ≤ (FileDedupeRange.mk v.src_offset v.src_length v.reserved1
            v.reserved2 v.info).src_offset := by
        simp [emitP]
      rcases dedupeLoop_trace oracle fuel v
        (FileDedupeRange.mk v.src_offset v.src_length v.reserved1 v.reserved2
          v.info)
        (List.range v.info.length) 0 0
        (emitP true [] (0, v.src_length, false)) h1 h2 h3 with h | h
      · exact absurd h hne
      · exact h

/-- C2 witness: the amended statement at a concrete one-round run. -/
theorem c2_final_once_nonfinal_monotone_witness :
    ∃ t, (fileDedupeRangeFull c2Oracle true (some c2Value) 5).trace =
        t ++ [(0, 0, true)] ∧
      (∀ p ∈ t, p.2.2 = false) ∧
      List.Chain' (· ≤ ·) (t.map (fun p => p.1)) := by
  refine c2_final_once_nonfinal_monotone c2Oracle (some c2Value) 5 ?_
  rw [show (fileDedupeRangeFull c2Oracle true (some c2Value) 5).exit =
    DedupeExit.completed from rfl]
  decide

/-- C3 amended: with source length 0 and at least one target the run always
issues exactly one bounded dedupe call (not zero), the final progress call is
delivered exactly once as the last call, and on the successful path (no
assertion panic, consensus byte count 0) each target's status is overwritten
with the round's reported status and its accumulated bytes incremented by the
round's reported count - so a zero-byte reply leaves the accumulated bytes
unchanged but still overwrites the status. -/
theorem c3_zero_length_single_round (oracle : DedupeOracle)
    (value : FileDedupeRange) (fuel : Nat) (hfuel : 1 ≤ fuel)
    (hne : value.info ≠ []) (hlen : value.src_length = 0) :
    (fileDedupeRangeFull oracle true (some value) fuel).ioctlCalls = 1 ∧
    (∃ t, (fileDedupeRangeFull oracle true (some value) fuel).trace =
        t ++ [(0, 0, true)] ∧ ∀ p ∈ t, p.2.2 = false) ∧
    ∀ resp, oracle 0 value = .ok resp →
      hasVaryingSame (applyResp value.info resp) = false →
      (firstSameBytes (applyResp value.info resp)).getD 0 = 0 →
      ∀ (j : Nat) (p : Nat × Int) (v0 : FileDedupeRangeInfo),
        resp[j]? = some p → value.info[j]? = some v0 →
        ∃ v', (fileDedupeRangeFull oracle true (some value) fuel).value =
            some v' ∧
          v'.info[j]? = some { v0 with
            bytes_deduped := v0.bytes_deduped + p.1, status := p.2 } := by
  obtain ⟨k, rfl⟩ : ∃ k, fuel = k + 1 := by
    cases fuel with
    | zero => omega
    | succ k => exact ⟨k, rfl⟩
  have hEmpty : value.info.isEmpty = false := by
    simp [List.isEmpty_iff, hne]
  have hreq : FileDedupeRange.mk value.src_offset value.src_length
      value.reserved1 value.reserved2 value.info = value := rfl
  have hrun : fileDedupeRangeFull oracle true (some value) (k + 1) =
      dedupeLoop oracle true (k + 1) value value
        (List.range value.info.length) 0 0 [(0, value.src_length, false)] := by
    simp [fileDedupeRangeFull, hEmpty, hreq, emitP]
  have hmain : (fileDedupeRangeFull oracle true (some value)
        (k + 1)).ioctlCalls = 1 ∧
      (fileDedupeRangeFull oracle true (some value) (k + 1)).exit ≠
        .outOfFuel ∧
      (∀ resp, oracle 0 value = .ok resp →
        hasVaryingSame (applyResp value.info resp) = false →
        (firstSameBytes (applyResp value.info resp)).getD 0 = 0 →
        ∀ (j : Nat) (p : Nat × Int) (v0 : FileDedupeRangeInfo),
          resp[j]? = some p → value.info[j]? = some v0 →
          ∃ v', (fileDedupeRangeFull oracle true (some value)
              (k + 1)).value = some v' ∧
            v'.info[j]? = some { v0 with
              bytes_deduped := v0.bytes_deduped + p.1, status := p.2 }) := by
    rw [hrun]
    cases horacle : oracle 0 value with
    | err e =>
      simp only [dedupeLoop, horacle]
      refine ⟨by simp, by simp, ?_⟩
      intro resp habs
      exact absurd habs (by simp)
    | ok resp0 =>
      simp only [dedupeLoop, horacle]
      split
      · rename_i hvary
        refine ⟨by simp, by simp, ?_⟩
        intro resp habs hv hd j p v0 hj hvj
        obtain rfl : resp0 = resp := by injection habs with h
        rw [hv] at hvary
        exact absurd hvary (by decide)
      · rename_i hvary
        split
        · rename_i hover
          refine ⟨by simp, by simp, ?_⟩
          intro resp habs hv hd j p v0 hj hvj
          obtain rfl : resp0 = resp := by injection habs with h
          rw [hd] at hover
          exact absurd hover (by omega)
        · rename_i hover
          split
          · rename_i hzero
            refine ⟨by simp, by simp, ?_⟩
            intro resp habs hv hd j p v0 hj hvj
            obtain rfl : resp0 = resp := by injection habs with h
            have hlt : j < value.info.length := by
              rcases List.getElem?_eq_some_iff.mp hvj with ⟨h, _⟩
              exact h
            have hri : (applyResp value.info resp0)[j]? =
                some { v0 with bytes_deduped := p.1, status := p.2 } := by
              simp [applyResp_getElem?, hvj, hj]
            have hidx : (List.range value.info.length)[j]? = some j :=
              List.getElem?_range hlt
            refine ⟨_, rfl, ?_⟩
            rw [writebackLoop_fst_pair _ _ _ _ _ j j _
              (List.nodup_range _) hidx hri, hvj]
            rfl
          · rename_i hzero
            exfalso
            apply hzero
            rw [hlen]
            simp
  refine ⟨hmain.1, ?_, hmain.2.2⟩
  have h1 : ∀ p ∈ [((0 : Nat), value.src_length, false)], p.2.2 = false := by
    simp
  have h2 : List.Chain' (· ≤ ·)
      ([((0 : Nat), value.src_length, false)].map (fun p => p.1)) := by
    simp
  have h3 : ∀ x ∈ (([((0 : Nat), value.src_length, false)].map
      (fun p => p.1)).getLast?), x ≤ value.src_offset := by
    simp
  rcases dedupeLoop_trace oracle (k + 1) value value
    (List.range value.info.length) 0 0
    [(0, value.src_length, false)] h1 h2 h3 with h | h
  · rw [← hrun] at h
    exact absurd h hmain.2.1
  · rw [← hrun] at h
    obtain ⟨t, ht, hnf, _⟩ := h
    exact ⟨t, ht, hnf⟩

/-- C3 witness: the amended statement at the concrete zero-length request,
whose single round reports SAME with zero bytes: one ioctl is issued, the
final progress call is last, and the target's slot becomes bytes 7 + 0 with
status SAME. -/
theorem c3_zero_length_single_round_witness :
    (fileDedupeRangeFull c3Oracle true (some c3Value) 5).ioctlCalls = 1 ∧
    ∃ v', (fileDedupeRangeFull c3Oracle true (some c3Value) 5).value =
        some v' ∧
      v'.info[0]? = some (FileDedupeRangeInfo.mk 10 0 (7 + 0)
        FILE_DEDUPE_RANGE_SAME 0) := by
  have h := c3_zero_length_single_round c3Oracle c3Value 5 (by decide)
    (by decide) rfl
  refine ⟨h.1, ?_⟩
  exact h.2.2 [(0, FILE_DEDUPE_RANGE_SAME)] rfl (by decide) (by decide)
    0 (0, FILE_DEDUPE_RANGE_SAME)
    { dest_fd := 10, dest_offset := 0, bytes_deduped := 7, status := 42 }
    rfl rfl

theorem prefix_append_both {α : Type} {p q : List α} (l : List α)
    (h : p <+: q) : l ++ p <+: l ++ q := by
  obtain ⟨t, ht⟩ := h
  exact ⟨t, by rw [List.append_assoc, ht]⟩

theorem enumFrom_append {α : Type} (l₁ l₂ : List α) :
    ∀ n : Nat, (l₁ ++ l₂).enumFrom n =
      l₁.enumFrom n ++ l₂.enumFrom (n + l₁.length) := by
  induction l₁ with
  | nil => intro n; simp
  | cons a l ih =>
    intro n
    simp only [List.cons_append, List.enumFrom_cons, ih (n + 1),
      List.length_cons, List.cons_append, List.append_cancel_left_eq]
    have : n + 1 + l.length = n + (l.length + 1) := by omega
    rw [this]

theorem enumFrom_take_pref {α : Type} (l : List α) (k n : Nat) :
    (l.take k).enumFrom n <+: l.enumFrom n := by
  refine ⟨(l.drop k).enumFrom (n + (l.take k).length), ?_⟩
  rw [← enumFrom_append, List.take_append_drop]

theorem processBatch_fst_pref (cb : Nat → FiemapExtent → Bool)
    (l : List FiemapExtent) : ∀ idx : Nat,
    (processBatch cb idx l).1 <+: l.enumFrom idx := by
  induction l with
  | nil => intro idx; simp [processBatch]
  | cons e rest ih =>
    intro idx
    by_cases hcb : cb idx e
    · simp only [processBatch, if_pos hcb, List.enumFrom_cons]
      exact ⟨rest.enumFrom (idx + 1), rfl⟩
    · by_cases hfl : e.flags.land FIEMAP_EXTENT_LAST ≠ 0
      · simp only [processBatch, if_neg hcb, if_pos hfl, List.enumFrom_cons]
        exact ⟨rest.enumFrom (idx + 1), rfl⟩
      · simp only [processBatch, if_neg hcb, if_neg hfl, List.enumFrom_cons]
        exact (List.cons_prefix_cons).mpr ⟨rfl, ih (idx + 1)⟩

theorem processBatch_not_stopped (cb : Nat → FiemapExtent → Bool)
    (l : List FiemapExtent) : ∀ idx : Nat,
    (processBatch cb idx l).2 = false →
    (processBatch cb idx l).1 = l.enumFrom idx := by
  induction l with
  | nil => intro idx _; simp [processBatch]
  | cons e rest ih =>
    intro idx h
    by_cases hcb : cb idx e
    · simp [processBatch, if_pos hcb] at h
    · by_cases hfl : e.flags.land FIEMAP_EXTENT_LAST ≠ 0
      · simp [processBatch, if_neg hcb, if_pos hfl] at h
      · simp only [processBatch, if_neg hcb, if_neg hfl,
          List.enumFrom_cons] at h ⊢
        rw [ih (idx + 1) h]

theorem processBatch_all_false (cb : Nat → FiemapExtent → Bool)
    (hcb : ∀ i e, cb i e = false) (l : List FiemapExtent) : ∀ idx : Nat,
    (∀ e ∈ l, e.flags.land FIEMAP_EXTENT_LAST = 0) →
    processBatch cb idx l = (l.enumFrom idx, false) := by
  induction l with
  | nil => intro idx _; simp [processBatch]
  | cons e rest ih =>
    intro idx hnl
    have h1 : ¬ cb idx e = true := by simp [hcb idx e]
    have h2 : ¬ e.flags.land FIEMAP_EXTENT_LAST ≠ 0 := by
      simp [hnl e (List.mem_cons_self _ _)]
    simp only [processBatch, if_neg h1, if_neg h2, List.enumFrom_cons]
    rw [ih (idx + 1) (fun x hx => hnl x (List.mem_cons_of_mem _ hx))]

theorem processBatch_last_flag (cb : Nat → FiemapExtent → Bool)
    (hcb : ∀ i e, cb i e = false) (init : List FiemapExtent)
    (el : FiemapExtent) (hfl : el.flags.land FIEMAP_EXTENT_LAST ≠ 0) :
    ∀ idx : Nat, (∀ e ∈ init, e.flags.land FIEMAP_EXTENT_LAST = 0) →
    processBatch cb idx (init ++ [el]) =
      ((init ++ [el]).enumFrom idx, true) := by
  induction init with
  | nil =>
    intro idx _
    have h1 : ¬ cb idx el = true := by simp [hcb idx el]
    simp only [List.nil_append, processBatch, if_neg h1, if_pos hfl,
      List.enumFrom_cons]
    simp [processBatch]
  | cons e rest ih =>
    intro idx hnl
    have h1 : ¬ cb idx e = true := by simp [hcb idx e]
    have h2 : ¬ e.flags.land FIEMAP_EXTENT_LAST ≠ 0 := by
      simp [hnl e (List.mem_cons_self _ _)]
    have hstep : processBatch cb idx ((e :: rest) ++ [el]) =
        ((idx, e) :: (processBatch cb (idx + 1) (rest ++ [el])).1,
          (processBatch cb (idx + 1) (rest ++ [el])).2) := by
      simp only [List.cons_append, processBatch, if_neg h1, if_neg h2]
      rfl
    rw [hstep, ih (idx + 1) (fun x hx => hnl x (List.mem_cons_of_mem _ hx))]
    simp

theorem fiemapQuery_split (l₁ l₂ : List FiemapExtent) (start cap : Nat)
    (h1 : ∀ e ∈ l₁, e.logical < start) (h2 : ∀ e ∈ l₂, start ≤ e.logical) :
    fiemapQuery (l₁ ++ l₂) start cap = l₂.take cap := by
  unfold fiemapQuery
  rw [List.filter_append]
  have e1 : l₁.filter (fun e => decide (start ≤ e.logical)) = [] := by
    rw [List.filter_eq_nil_iff]
    intro e he
    simpa using Nat.not_le.mpr (h1 e he)
  have e2 : l₂.filter (fun e => decide (start ≤ e.logical)) = l₂ := by
    rw [List.filter_eq_self]
    intro e he
    simpa using h2 e he
  rw [e1, e2, List.nil_append]

theorem fiemapWalkLoop_spec (cap : Nat) (cb : Nat → FiemapExtent → Bool)
    (hcap : 0 < cap) (fuel : Nat) :
    ∀ (l₁ l₂ : List FiemapExtent) (idxOff start : Nat),
    ExtentsWF (l₁ ++ l₂) →
    (∀ e ∈ l₁, e.logical < start) →
    (∀ e ∈ l₂, start ≤ e.logical) →
    l₂.length < fuel →
    (fiemapWalkLoop (fun s => fiemapQuery (l₁ ++ l₂) s cap) cb fuel
        idxOff start).finished = true ∧
    (fiemapWalkLoop (fun s => fiemapQuery (l₁ ++ l₂) s cap) cb fuel
        idxOff start).visits <+: l₂.enumFrom idxOff ∧
    ((∀ i e, cb i e = false) →
      (∀ e ∈ l₂.dropLast, e.flags.land FIEMAP_EXTENT_LAST = 0) →
      (fiemapWalkLoop (fun s => fiemapQuery (l₁ ++ l₂) s cap) cb fuel
        idxOff start).visits = l₂.enumFrom idxOff) := by
  induction fuel with
  | zero =>
    intro l₁ l₂ idxOff start _ _ _ hlen
    omega
  | succ fuel ih =>
    intro l₁ l₂ idxOff start hwf h1 h2 hlen
    have hq : fiemapQuery (l₁ ++ l₂) start cap = l₂.take cap :=
      fiemapQuery_split l₁ l₂ start cap h1 h2
    cases l₂ with
    | nil =>
      have hrun : fiemapWalkLoop (fun s => fiemapQuery (l₁ ++ []) s cap) cb
          (fuel + 1) idxOff start = ⟨[], [start], true⟩ := by
        simp only [fiemapWalkLoop]
        rw [hq]
        simp
      rw [hrun]
      exact ⟨rfl, List.nil_prefix, fun _ _ => rfl⟩
    | cons x l₂' =>
      have hbne : (x :: l₂').take cap ≠ [] := by
        cases cap with
        | zero => omega
        | succ c => simp
      have hbe : ¬ (((x :: l₂').take cap).isEmpty = true) := by
        simp [List.isEmpty_iff, hbne]
      simp only [fiemapWalkLoop]
      rw [hq, if_neg hbe]
      obtain ⟨hpw, hpos⟩ := hwf
      by_cases hstop : (processBatch cb idxOff ((x :: l₂').take cap)).2 = true
      · rw [if_pos hstop]
        refine ⟨rfl, ?_, ?_⟩
        · exact (processBatch_fst_pref cb _ idxOff).trans
            (enumFrom_take_pref (x :: l₂') cap idxOff)
        · intro hcb hnl
          by_cases hle : (x :: l₂').length ≤ cap
          · have hbfull : (x :: l₂').take cap = x :: l₂' :=
              List.take_of_length_le hle
            have hne : (x :: l₂') ≠ [] := by simp
            have hsplit := List.dropLast_concat_getLast hne
            by_cases hfl :
                ((x :: l₂').getLast hne).flags.land FIEMAP_EXTENT_LAST ≠ 0
            · have hpb := processBatch_last_flag cb hcb
                ((x :: l₂').dropLast) _ hfl idxOff (fun e he => hnl e he)
              rw [hsplit] at hpb
              rw [hbfull, hpb]
            · push_neg at hfl
              have hall : ∀ e ∈ (x :: l₂'),
                  e.flags.land FIEMAP_EXTENT_LAST = 0 := by
                intro e he
                rw [← hsplit] at he
                rcases List.mem_append.mp he with h | h
                · exact hnl e h
                · simp only [List.mem_singleton] at h
                  subst h
                  exact hfl
              have hpb := processBatch_all_false cb hcb (x :: l₂') idxOff hall
              rw [hbfull, hpb] at hstop
              simp at hstop
          · push_neg at hle
            have hsub : ∀ e ∈ (x :: l₂').take cap,
                e ∈ (x :: l₂').dropLast := by
              intro e he
              rw [List.dropLast_eq_take]
              have heq : (x :: l₂').take cap =
                  ((x :: l₂').take ((x :: l₂').length - 1)).take cap := by
                rw [List.take_take]
                congr 1
                omega
              rw [heq] at he
              exact List.take_subset _ _ he
            have hall : ∀ e ∈ (x :: l₂').take cap,
                e.flags.land FIEMAP_EXTENT_LAST = 0 :=
              fun e he => hnl e (hsub e he)
            have hpb := processBatch_all_false cb hcb
              ((x :: l₂').take cap) idxOff hall
            rw [hpb] at hstop
            simp at hstop
      · rw [if_neg hstop]
        have hstop' : (processBatch cb idxOff ((x :: l₂').take cap)).2 =
            false := by
          simpa using hstop
        have hvs := processBatch_not_stopped cb _ idxOff hstop'
        set lastE := ((x :: l₂').take cap).getLast hbne with hlE
        have hlast_eq : ((x :: l₂').take cap).getLastD default = lastE := by
          rw [List.getLastD_eq_getLast?, List.getLast?_eq_getLast _ hbne]
          rfl
        have hlmem : lastE ∈ (x :: l₂').take cap := List.getLast_mem hbne
        have hbsub : ∀ e ∈ (x :: l₂').take cap, e ∈ (x :: l₂') :=
          fun e he => List.take_subset _ _ he
        have hlpos : 0 < lastE.length :=
          hpos lastE (List.mem_append.mpr (Or.inr (hbsub _ hlmem)))
        have hcat : (x :: l₂').take cap ++ (x :: l₂').drop cap = x :: l₂' :=
          List.take_append_drop cap _
        have hA : ∀ e ∈ l₁ ++ (x :: l₂').take cap,
            e.logical < lastE.logical + lastE.length := by
          intro e he
          rcases List.mem_append.mp he with h | h
          · have := (List.pairwise_append.mp hpw).2.2 e h lastE
              (hbsub _ hlmem)
            omega
          · have hbsplit :=
              List.dropLast_concat_getLast (l := (x :: l₂').take cap) hbne
            have hpb : ((x :: l₂').take cap).Pairwise
                (fun a b => a.logical + a.length ≤ b.logical) :=
              List.Pairwise.sublist ((List.take_sublist _ _).trans
                (List.sublist_append_right l₁ _)) hpw
            rw [← hbsplit] at h
            rcases List.mem_append.mp h with h | h
            · have hpb' : (((x :: l₂').take cap).dropLast ++ [lastE]).Pairwise
                  (fun a b => a.logical + a.length ≤ b.logical) := by
                rw [hbsplit]
                exact hpb
              have := (List.pairwise_append.mp hpb').2.2 e h lastE
                (List.mem_singleton_self _)
              omega
            · simp only [List.mem_singleton] at h
              rw [h, ← hlE]
              omega
        have hB : ∀ e ∈ (x :: l₂').drop cap,
            lastE.logical + lastE.length ≤ e.logical := by
          intro e he
          have hp2 : (x :: l₂').Pairwise
              (fun a b => a.logical + a.length ≤ b.logical) :=
            List.Pairwise.sublist (List.sublist_append_right l₁ _) hpw
          have hp3 : ((x :: l₂').take cap ++ (x :: l₂').drop cap).Pairwise
              (fun a b => a.logical + a.length ≤ b.logical) := by
            rw [hcat]
            exact hp2
          exact (List.pairwise_append.mp hp3).2.2 lastE hlmem e he
        have hC : ((x :: l₂').drop cap).length < fuel := by
          rw [List.length_drop]
          have := List.length_cons x l₂'
          omega
        have hD : ExtentsWF ((l₁ ++ (x :: l₂').take cap) ++
            (x :: l₂').drop cap) := by
          rw [List.append_assoc, hcat]
          exact ⟨hpw, hpos⟩
        have IH := ih (l₁ ++ (x :: l₂').take cap) ((x :: l₂').drop cap)
          (idxOff + ((x :: l₂').take cap).length)
          (lastE.logical + lastE.length) hD hA hB hC
        rw [List.append_assoc, hcat] at IH
        have henum : (x :: l₂').enumFrom idxOff =
            ((x :: l₂').take cap).enumFrom idxOff ++
              ((x :: l₂').drop cap).enumFrom
                (idxOff + ((x :: l₂').take cap).length) := by
          rw [← enumFrom_append, hcat]
        refine ⟨?_, ?_, ?_⟩
        · rw [hlast_eq]
          exact IH.1
        · rw [hlast_eq, hvs, henum]
          exact prefix_append_both _ IH.2.1
        · intro hcb hnl
          have hnl' : ∀ e ∈ ((x :: l₂').drop cap).dropLast,
              e.flags.land FIEMAP_EXTENT_LAST = 0 := by
            intro e he
            by_cases hc : (x :: l₂').length ≤ cap
            · rw [List.drop_eq_nil_of_le hc] at he
              simp at he
            · push_neg at hc
              apply hnl
              rw [List.dropLast_eq_take, List.length_drop,
                List.take_drop] at he
              have hmem2 := List.drop_subset _ _ he
              have harith : cap + ((x :: l₂').length - cap - 1) =
                  (x :: l₂').length - 1 := by omega
              rw [harith] at hmem2
              rw [List.dropLast_eq_take]
              exact hmem2
          rw [hlast_eq, hvs, IH.2.2 hcb hnl', henum]

/-- C7: over a file whose extents are ascending, non-overlapping and of
positive length, FiemapWalk terminates, visits extents exactly once each in
order with the continuous index sequence starting at 0 (every visit list is a
prefix of the indexed extent list, and with a callback that never stops and
the LAST flag only on the final extent the visit list is exactly the indexed
extent list); it stops on a zero-extent query, on a callback stop, or on the
LAST flag, skipping the rest of the buffer.  On the spec's scenario D (buffer
of 4 extents, 10-extent file, last flagged LAST) it issues exactly 3 queries
whose start offsets 0, 400, 800 are each the previous batch's final logical
start plus length, and delivers indices 0 through 9. -/
theorem c7_fiemap_walk_spec (extents : List FiemapExtent) (cap : Nat)
    (cb : Nat → FiemapExtent → Bool) (fuel : Nat) (hcap : 0 < cap)
    (hwf : ExtentsWF extents) (hfuel : extents.length < fuel) :
    ((fiemapWalk extents cap cb fuel).finished = true ∧
     (fiemapWalk extents cap cb fuel).visits <+: extents.enum ∧
     ((∀ i e, cb i e = false) →
       (∀ e ∈ extents.dropLast, e.flags.land FIEMAP_EXTENT_LAST = 0) →
       (fiemapWalk extents cap cb fuel).visits = extents.enum)) ∧
    (fiemapWalk ext10 4 (fun _ _ => false) 20).queryStarts = [0, 400, 800] ∧
    (fiemapWalk ext10 4 (fun _ _ => false) 20).visits.map (fun p => p.1) =
      List.range 10 ∧
    (fiemapWalk ext10 4 (fun _ _ => false) 20).finished = true := by
  have hmain := fiemapWalkLoop_spec cap cb hcap fuel [] extents 0 0
    (by simpa using hwf) (by simp) (fun e _ => Nat.zero_le _) hfuel
  simp only [List.nil_append] at hmain
  refine ⟨⟨hmain.1, hmain.2.1, hmain.2.2⟩, rfl, rfl, rfl⟩

/-- C7 witness: the walk over the concrete 10-extent layout with a callback
that never stops visits exactly the indexed extent list and finishes. -/
theorem c7_fiemap_walk_spec_witness :
    (fiemapWalk ext10 4 (fun _ _ => false) 20).finished = true ∧
    (fiemapWalk ext10 4 (fun _ _ => false) 20).visits = ext10.enum := by
  have h := c7_fiemap_walk_spec ext10 4 (fun _ _ => false) 20 (by decide)
    (by constructor <;> decide) (by decide)
  exact ⟨h.1.1, h.1.2.2 (fun i e => rfl) (by decide)⟩


theorem applyResp_entry (l : List FileDedupeRangeInfo)
    (resp : List (Nat × Int)) (hlen : resp.length = l.length)
    (k : Nat) (r0 : FileDedupeRangeInfo)
    (h : (applyResp l resp)[k]? = some r0) :
    ∃ v p, l[k]? = some v ∧ resp[k]? = some p ∧
      r0 = { v with bytes_deduped := p.1, status := p.2 } := by
  rw [applyResp_getElem?] at h
  rcases Option.map_eq_some'.mp h with ⟨v, hv, hr⟩
  have hk : k < l.length := (List.getElem?_eq_some_iff.mp hv).1
  have hk2 : k < resp.length := by omega
  have hp : resp[k]? = some resp[k] := List.getElem?_eq_getElem hk2
  refine ⟨v, resp[k], hv, hp, ?_⟩
  simp only [hp] at hr
  exact hr.symm

theorem firstSameBytes_isSome (l : List FileDedupeRangeInfo) :
    ∀ x ∈ l, x.status = FILE_DEDUPE_RANGE_SAME →
    ∃ b, firstSameBytes l = some b := by
  induction l with
  | nil => intro x hx; simp at hx
  | cons a t ih =>
    intro x hx hs
    by_cases ha : a.status = FILE_DEDUPE_RANGE_SAME
    · exact ⟨a.bytes_deduped, by simp [firstSameBytes, ha]⟩
    · rcases List.mem_cons.mp hx with rfl | hx'
      · exact absurd hs ha
      · obtain ⟨b, hb⟩ := ih x hx' hs
        exact ⟨b, by simp [firstSameBytes, ha, hb]⟩

theorem hasVaryingSame_false_all (l : List FileDedupeRangeInfo)
    (hv : hasVaryingSame l = false) (b : Nat)
    (hb : firstSameBytes l = some b) :
    ∀ x ∈ l, x.status = FILE_DEDUPE_RANGE_SAME → x.bytes_deduped = b := by
  unfold hasVaryingSame at hv
  rw [hb, List.any_eq_false] at hv
  intro x hx hs
  have hx2 := hv x hx
  simp only [Bool.and_eq_true, beq_iff_eq, bne_iff_ne, not_and, ne_eq,
    not_not] at hx2
  exact hx2 hs

theorem consensus_eq (l : List FileDedupeRangeInfo)
    (hv : hasVaryingSame l = false) (x : FileDedupeRangeInfo) (hx : x ∈ l)
    (hs : x.status = FILE_DEDUPE_RANGE_SAME) :
    (firstSameBytes l).getD 0 = x.bytes_deduped := by
  obtain ⟨b, hb⟩ := firstSameBytes_isSome l x hx hs
  rw [hb]
  exact (hasVaryingSame_false_all l hv b hb x hx hs).symm

theorem keptList_nil_dl {α : Type} (l : List α) : ∀ k, keptList [] k l = l := by
  induction l with
  | nil => intro k; rfl
  | cons a t ih => intro k; simp [keptList, ih]

theorem keptList_sublist {α : Type} (dl : List Nat) (l : List α) :
    ∀ k, (keptList dl k l).Sublist l := by
  induction l with
  | nil => intro k; simp [keptList]
  | cons a t ih =>
    intro k
    by_cases hk : k ∈ dl
    · rw [keptList, if_pos hk]
      exact (ih (k + 1)).cons a
    · rw [keptList, if_neg hk]
      exact (ih (k + 1)).cons₂ a

theorem keptList_mem {α : Type} (dl : List Nat) (l : List α) :
    ∀ (k : Nat) (x : α), x ∈ keptList dl k l ↔
      ∃ j : Nat, l[j]? = some x ∧ (k + j) ∉ dl := by
  induction l with
  | nil => intro k x; simp [keptList]
  | cons a t ih =>
    intro k x
    by_cases hk : k ∈ dl
    · rw [keptList, if_pos hk, ih (k + 1) x]
      constructor
      · rintro ⟨j, hj, hnot⟩
        refine ⟨j + 1, by simpa using hj, ?_⟩
        rw [show k + (j + 1) = k + 1 + j by omega]
        exact hnot
      · rintro ⟨j, hj, hnot⟩
        cases j with
        | zero =>
          exact absurd hk (by simpa using hnot)
        | succ j =>
          refine ⟨j, by simpa using hj, ?_⟩
          rw [show k + 1 + j = k + (j + 1) by omega]
          exact hnot
    · rw [keptList, if_neg hk, List.mem_cons, ih (k + 1) x]
      constructor
      · rintro (rfl | ⟨j, hj, hnot⟩)
        · exact ⟨0, by simp, by simpa using hk⟩
        · refine ⟨j + 1, by simpa using hj, ?_⟩
          rw [show k + (j + 1) = k + 1 + j by omega]
          exact hnot
      · rintro ⟨j, hj, hnot⟩
        cases j with
        | zero =>
          left
          have : a = x := by simpa using hj
          exact this.symm
        | succ j =>
          right
          refine ⟨j, by simpa using hj, ?_⟩
          rw [show k + 1 + j = k + (j + 1) by omega]
          exact hnot

theorem keptList_length_eq {α β : Type} (dl : List Nat) :
    ∀ (l₁ : List α) (l₂ : List β) (k : Nat), l₁.length = l₂.length →
    (keptList dl k l₁).length = (keptList dl k l₂).length := by
  intro l₁
  induction l₁ with
  | nil =>
    intro l₂ k hlen
    cases l₂ with
    | nil => rfl
    | cons b t => simp at hlen
  | cons a t ih =>
    intro l₂ k hlen
    cases l₂ with
    | nil => simp at hlen
    | cons b t2 =>
      simp only [List.length_cons, Nat.add_right_cancel_iff] at hlen
      by_cases hk : k ∈ dl
      · rw [keptList, if_pos hk, keptList, if_pos hk]
        exact ih t2 (k + 1) hlen
      · rw [keptList, if_neg hk, keptList, if_neg hk]
        simp only [List.length_cons]
        rw [ih t2 (k + 1) hlen]

theorem writebackLoop_snd_length (d : Nat) (ri : List FileDedupeRangeInfo) :
    ∀ (idx : List Nat) (i : Nat) (v : List FileDedupeRangeInfo),
    ((writebackLoop d ri idx i v).2.1).length = ri.length := by
  induction ri with
  | nil => intro idx i v; simp [writebackLoop]
  | cons r0 rest ih =>
    intro idx i v
    cases idx with
    | nil => simp [writebackLoop]
    | cons j jrest =>
      rcases hv : v[j]? with _ | x <;>
        · simp only [writebackLoop, hv]
          split <;> simp [ih]

theorem writebackLoop_dropList_spec (d : Nat)
    (ri : List FileDedupeRangeInfo) :
    ∀ (idx : List Nat) (i : Nat) (v : List FileDedupeRangeInfo),
    ri.length ≤ idx.length →
    List.Pairwise (· < ·) (writebackLoop d ri idx i v).2.2 ∧
    (∀ x ∈ (writebackLoop d ri idx i v).2.2, i ≤ x ∧ x < i + ri.length) ∧
    ∀ (k : Nat) (r0 : FileDedupeRangeInfo), ri[k]? = some r0 →
      ((i + k) ∈ (writebackLoop d ri idx i v).2.2 ↔
        r0.status ≠ FILE_DEDUPE_RANGE_SAME) := by
  induction ri with
  | nil =>
    intro idx i v _
    refine ⟨by simp [writebackLoop], by simp [writebackLoop], ?_⟩
    intro k r0 hk
    simp at hk
  | cons rh rest ih =>
    intro idx i v hlen
    cases idx with
    | nil => simp at hlen
    | cons j jrest =>
      have hlen' : rest.length ≤ jrest.length := by
        simpa using hlen
      obtain ⟨hpw, hbnd, hmem⟩ := ih jrest (i + 1)
        (match v[j]? with
         | some x =>
           v.set j { x with
             bytes_deduped := x.bytes_deduped + rh.bytes_deduped,
             status := rh.status }
         | none => v) hlen'
      simp only [writebackLoop]
      by_cases hs : rh.status = FILE_DEDUPE_RANGE_SAME
      · rw [if_pos hs]
        refine ⟨hpw, ?_, ?_⟩
        · intro y hy
          have := hbnd y hy
          simp only [List.length_cons]
          omega
        · intro k r0 hk
          cases k with
          | zero =>
            simp only [List.getElem?_cons_zero, Option.some_inj] at hk
            have hs0 : r0.status = FILE_DEDUPE_RANGE_SAME := by
              rw [← hk]; exact hs
            simp only [hs0, ne_eq, not_true_eq_false, iff_false]
            intro hmem2
            have := hbnd _ hmem2
            omega
          | succ k =>
            simp only [List.getElem?_cons_succ] at hk
            have := hmem k r0 hk
            rw [show i + (k + 1) = i + 1 + k by omega]
            exact this
      · rw [if_neg hs]
        refine ⟨?_, ?_, ?_⟩
        · refine List.Pairwise.cons ?_ hpw
          intro y hy
          have := hbnd y hy
          omega
        · intro y hy
          rcases List.mem_cons.mp hy with rfl | hy'
          · simp only [List.length_cons]
            omega
          · have := hbnd y hy'
            simp only [List.length_cons]
            omega
        · intro k r0 hk
          cases k with
          | zero =>
            simp only [List.getElem?_cons_zero, Option.some_inj] at hk
            have hs0 : ¬ r0.status = FILE_DEDUPE_RANGE_SAME := by
              rw [← hk]; exact hs
            simp [hs0]
          | succ k =>
            simp only [List.getElem?_cons_succ] at hk
            have hiff := hmem k r0 hk
            rw [show i + (k + 1) = i + 1 + k by omega]
            rw [List.mem_cons]
            constructor
            · rintro (heq | hmem2)
              · exfalso
                omega
              · exact hiff.mp hmem2
            · intro hne
              exact Or.inr (hiff.mpr hne)


theorem writebackLoop_snd_getElem? (d : Nat)
    (ri : List FileDedupeRangeInfo) :
    ∀ (idx : List Nat) (i : Nat) (v : List FileDedupeRangeInfo)
      (k : Nat) (r0 : FileDedupeRangeInfo),
    ri.length ≤ idx.length → ri[k]? = some r0 →
    ((writebackLoop d ri idx i v).2.1)[k]? =
      some (if r0.status = FILE_DEDUPE_RANGE_SAME then
        { r0 with dest_offset := r0.dest_offset + d } else r0) := by
  induction ri with
  | nil => intro idx i v k r0 _ hk; simp at hk
  | cons rh rest ih =>
    intro idx i v k r0 hlen hk
    cases idx with
    | nil => simp at hlen
    | cons j jrest =>
      have hlen' : rest.length ≤ jrest.length := by simpa using hlen
      have hrec := ih jrest (i + 1)
        (match v[j]? with
         | some x =>
           v.set j { x with
             bytes_deduped := x.bytes_deduped + rh.bytes_deduped,
             status := rh.status }
         | none => v)
      cases k with
      | zero =>
        simp only [List.getElem?_cons_zero, Option.some_inj] at hk
        have hstat : r0.status = rh.status := by rw [← hk]
        have hdo : r0.dest_offset = rh.dest_offset := by rw [← hk]
        simp only [writebackLoop]
        by_cases hs : rh.status = FILE_DEDUPE_RANGE_SAME
        · rw [if_pos hs]
          simp only [List.getElem?_cons_zero, Option.some_inj]
          rw [← hk]
          simp [hs]
        · rw [if_neg hs]
          simp only [List.getElem?_cons_zero, Option.some_inj]
          rw [← hk]
          simp [hs]
      | succ k =>
        simp only [List.getElem?_cons_succ] at hk
        simp only [writebackLoop]
        by_cases hs : rh.status = FILE_DEDUPE_RANGE_SAME
        · rw [if_pos hs]
          simpa using hrec k r0 hlen' hk
        · rw [if_neg hs]
          simpa using hrec k r0 hlen' hk


theorem pairwise_lt_getElem? (dl : List Nat)
    (hpw : List.Pairwise (· < ·) dl) (k1 k2 x1 x2 : Nat) (h12 : k1 < k2)
    (h1 : dl[k1]? = some x1) (h2 : dl[k2]? = some x2) : x1 < x2 := by
  obtain ⟨b1, e1⟩ := List.getElem?_eq_some_iff.mp h1
  obtain ⟨b2, e2⟩ := List.getElem?_eq_some_iff.mp h2
  have h := List.pairwise_iff_getElem.mp hpw k1 k2 b1 b2 h12
  rw [e1, e2] at h
  exact h

theorem dropLoop_step_none (dl : List Nat) (rem srcIndex dropIndex dstIndex :
    Nat) (ri : List FileDedupeRangeInfo) (ii : List Nat)
    (hd : dl[dropIndex]? = none) :
    dropLoop dl (rem + 1) srcIndex dropIndex dstIndex ri ii =
      .error "runtime error: index out of range" := by
  simp [dropLoop, hd]

theorem dropLoop_step_skip (dl : List Nat) (rem srcIndex dropIndex dstIndex :
    Nat) (ri : List FileDedupeRangeInfo) (ii : List Nat) (d : Nat)
    (hd : dl[dropIndex]? = some d) (heq : srcIndex = d) :
    dropLoop dl (rem + 1) srcIndex dropIndex dstIndex ri ii =
      dropLoop dl rem (srcIndex + 1) (dropIndex + 1) dstIndex ri ii := by
  simp only [dropLoop, hd]
  rw [if_pos heq]

theorem dropLoop_step_keep (dl : List Nat) (rem srcIndex dropIndex dstIndex :
    Nat) (ri : List FileDedupeRangeInfo) (ii : List Nat) (d : Nat)
    (hd : dl[dropIndex]? = some d) (heq : ¬ srcIndex = d)
    (heq2 : srcIndex = dstIndex) :
    dropLoop dl (rem + 1) srcIndex dropIndex dstIndex ri ii =
      dropLoop dl rem (srcIndex + 1) dropIndex (dstIndex + 1) ri ii := by
  simp only [dropLoop, hd]
  rw [if_neg heq, if_pos heq2]

theorem dropLoop_step_copy (dl : List Nat) (rem srcIndex dropIndex dstIndex :
    Nat) (ri : List FileDedupeRangeInfo) (ii : List Nat) (d : Nat)
    (rv : FileDedupeRangeInfo) (iv : Nat)
    (hd : dl[dropIndex]? = some d) (heq : ¬ srcIndex = d)
    (heq2 : ¬ srcIndex = dstIndex) (hri : ri[srcIndex]? = some rv)
    (hii : ii[srcIndex]? = some iv) :
    dropLoop dl (rem + 1) srcIndex dropIndex dstIndex ri ii =
      dropLoop dl rem (srcIndex + 1) dropIndex (dstIndex + 1)
        (ri.set dstIndex rv) (ii.set dstIndex iv) := by
  simp only [dropLoop, hd]
  rw [if_neg heq, if_neg heq2]
  simp only [hri, hii]

theorem dropLoop_step_copy_err (dl : List Nat)
    (rem srcIndex dropIndex dstIndex : Nat) (ri : List FileDedupeRangeInfo)
    (ii : List Nat) (d : Nat)
    (hd : dl[dropIndex]? = some d) (heq : ¬ srcIndex = d)
    (heq2 : ¬ srcIndex = dstIndex)
    (hfail : ri[srcIndex]? = none ∨ ii[srcIndex]? = none) :
    dropLoop dl (rem + 1) srcIndex dropIndex dstIndex ri ii =
      .error "runtime error: index out of range" := by
  simp only [dropLoop, hd]
  rw [if_neg heq, if_neg heq2]
  rcases hfail with h | h
  · simp only [h]
  · simp only [h]
    rcases hm : ri[srcIndex]? with _ | y <;> rfl

theorem dropLoop_short_err (dl : List Nat)
    (hpw : List.Pairwise (· < ·) dl) (rem : Nat) :
    ∀ (srcIndex dropIndex dstIndex : Nat) (ri : List FileDedupeRangeInfo)
      (ii : List Nat),
    (∀ x ∈ dl, x < ri.length) →
    ri.length < srcIndex + rem →
    srcIndex ≤ ri.length →
    (∀ (k x : Nat), dropIndex ≤ k → dl[k]? = some x → srcIndex ≤ x) →
    dropLoop dl rem srcIndex dropIndex dstIndex ri ii =
      .error "runtime error: index out of range" := by
  induction rem with
  | zero =>
    intro srcIndex dropIndex dstIndex ri ii _ hcover hsrc _
    omega
  | succ rem ih =>
    intro srcIndex dropIndex dstIndex ri ii hbound hcover hsrc hH2
    cases hd : dl[dropIndex]? with
    | none => exact dropLoop_step_none dl rem srcIndex dropIndex dstIndex ri ii hd
    | some d =>
      have hsd : srcIndex ≤ d := hH2 dropIndex d (le_refl _) hd
      have hdb : d < ri.length := hbound d (List.getElem?_mem hd)
      by_cases heq : srcIndex = d
      · rw [dropLoop_step_skip dl rem srcIndex dropIndex dstIndex ri ii d hd
          heq]
        apply ih
        · exact hbound
        · omega
        · omega
        · intro k x hk hx
          have := pairwise_lt_getElem? dl hpw dropIndex k d x (by omega) hd hx
          omega
      · have hH2' : ∀ (k x : Nat), dropIndex ≤ k → dl[k]? = some x →
            srcIndex + 1 ≤ x := by
          intro k x hk hx
          rcases Nat.eq_or_lt_of_le hk with hk2 | hk2
          · rw [← hk2] at hx
            rw [hd] at hx
            injection hx with hx2
            omega
          · have := pairwise_lt_getElem? dl hpw dropIndex k d x hk2 hd hx
            omega
        by_cases heq2 : srcIndex = dstIndex
        · rw [dropLoop_step_keep dl rem srcIndex dropIndex dstIndex ri ii d
            hd heq heq2]
          apply ih
          · exact hbound
          · omega
          · omega
          · exact hH2'
        · cases hri : ri[srcIndex]? with
          | none =>
            exact dropLoop_step_copy_err dl rem srcIndex dropIndex dstIndex
              ri ii d hd heq heq2 (Or.inl hri)
          | some rv =>
            cases hii : ii[srcIndex]? with
            | none =>
              exact dropLoop_step_copy_err dl rem srcIndex dropIndex dstIndex
                ri ii d hd heq heq2 (Or.inr hii)
            | some iv =>
              rw [dropLoop_step_copy dl rem srcIndex dropIndex dstIndex ri ii
                d rv iv hd heq heq2 hri hii]
              apply ih
              · intro x hx
                rw [List.length_set]
                exact hbound x hx
              · rw [List.length_set]
                omega
              · rw [List.length_set]
                omega
              · exact hH2'


theorem take_set_self {α : Type} (l : List α) (n : Nat) (a : α) :
    (l.set n a).take n = l.take n := by
  apply List.ext_getElem?
  intro k
  by_cases hk : k < n
  · rw [List.getElem?_take_of_lt hk, List.getElem?_take_of_lt hk,
      List.getElem?_set_ne (by omega)]
  · rw [List.getElem?_take_eq_none (by omega),
      List.getElem?_take_eq_none (by omega)]

theorem take_succ_set {α : Type} (l : List α) (n : Nat) (a : α)
    (h : n < l.length) :
    (l.set n a).take (n + 1) = l.take n ++ [a] := by
  rw [List.take_succ, take_set_self, List.getElem?_set_self h]
  rfl

theorem take_succ_of_lt {α : Type} (l : List α) (n : Nat) (h : n < l.length) :
    l.take (n + 1) = l.take n ++ [l.get ⟨n, h⟩] := by
  rw [List.take_succ, List.getElem?_eq_getElem h]
  rfl

theorem dropLoop_full_spec (dl : List Nat)
    (hpw : List.Pairwise (· < ·) dl) (rem : Nat) :
    ∀ (srcIndex dropIndex dstIndex : Nat) (ri : List FileDedupeRangeInfo)
      (ii : List Nat) (dst' : Nat) (ri' : List FileDedupeRangeInfo)
      (ii' : List Nat),
    srcIndex + rem = ri.length →
    ii.length = ri.length →
    dstIndex ≤ srcIndex →
    (∀ (k x : Nat), k < dropIndex → dl[k]? = some x → x < srcIndex) →
    (∀ (k x : Nat), dropIndex ≤ k → dl[k]? = some x → srcIndex ≤ x) →
    dropLoop dl rem srcIndex dropIndex dstIndex ri ii = .ok (dst', ri', ii') →
    ri'.take dst' = ri.take dstIndex ++ keptList dl srcIndex
      (ri.drop srcIndex) ∧
    ii'.take dst' = ii.take dstIndex ++ keptList dl srcIndex
      (ii.drop srcIndex) := by
  induction rem with
  | zero =>
    intro srcIndex dropIndex dstIndex ri ii dst' ri' ii' hrem hlen hdst _ _ hok
    have hsrc : srcIndex = ri.length := by omega
    simp only [dropLoop, Except.ok.injEq, Prod.mk.injEq] at hok
    obtain ⟨h1, h2, h3⟩ := hok
    subst h1
    subst h2
    subst h3
    have hdr : ri.drop srcIndex = [] := by rw [hsrc, List.drop_length]
    have hdi : ii.drop srcIndex = [] := by
      have : srcIndex = ii.length := by omega
      rw [this, List.drop_length]
    rw [hdr, hdi]
    simp [keptList]
  | succ rem ih =>
    intro srcIndex dropIndex dstIndex ri ii dst' ri' ii' hrem hlen hdst hH3
      hH2 hok
    have hsrcm : srcIndex < ri.length := by omega
    have hsrcm2 : srcIndex < ii.length := by omega
    cases hd : dl[dropIndex]? with
    | none =>
      rw [dropLoop_step_none dl rem srcIndex dropIndex dstIndex ri ii hd]
        at hok
      simp at hok
    | some d =>
      have hsd : srcIndex ≤ d := hH2 dropIndex d (le_refl _) hd
      by_cases heq : srcIndex = d
      · have hmem : srcIndex ∈ dl := by
          rw [heq]
          exact List.getElem?_mem hd
        rw [dropLoop_step_skip dl rem srcIndex dropIndex dstIndex ri ii d hd
          heq] at hok
        have hH3' : ∀ (k x : Nat), k < dropIndex + 1 → dl[k]? = some x →
            x < srcIndex + 1 := by
          intro k x hk hx
          rcases Nat.lt_or_ge k dropIndex with hk2 | hk2
          · have := hH3 k x hk2 hx
            omega
          · have hkd : k = dropIndex := by omega
            rw [hkd, hd] at hx
            injection hx with hx2
            omega
        have hH2' : ∀ (k x : Nat), dropIndex + 1 ≤ k → dl[k]? = some x →
            srcIndex + 1 ≤ x := by
          intro k x hk hx
          have := pairwise_lt_getElem? dl hpw dropIndex k d x (by omega) hd hx
          omega
        obtain ⟨g1, g2⟩ := ih (srcIndex + 1) (dropIndex + 1) dstIndex ri ii
          dst' ri' ii' (by omega) hlen (by omega) hH3' hH2' hok
        constructor
        · rw [List.drop_eq_getElem_cons hsrcm]
          simp only [keptList]
          rw [if_pos hmem]
          exact g1
        · rw [List.drop_eq_getElem_cons hsrcm2]
          simp only [keptList]
          rw [if_pos hmem]
          exact g2
      · have hnotmem : srcIndex ∉ dl := by
          intro hm
          obtain ⟨k, hbk, hk⟩ := List.getElem_of_mem hm
          have hk' : dl[k]? = some srcIndex := by
            rw [List.getElem?_eq_getElem hbk, hk]
          rcases Nat.lt_or_ge k dropIndex with hc | hc
          · have := hH3 k srcIndex hc hk'
            omega
          · rcases Nat.eq_or_lt_of_le hc with hc2 | hc2
            · rw [← hc2, hd] at hk'
              injection hk' with hk2
              exact heq hk2.symm
            · have := pairwise_lt_getElem? dl hpw dropIndex k d srcIndex hc2
                hd hk'
              omega
        have hH2' : ∀ (k x : Nat), dropIndex ≤ k → dl[k]? = some x →
            srcIndex + 1 ≤ x := by
          intro k x hk hx
          have hge := hH2 k x hk hx
          have hne : x ≠ srcIndex := by
            intro hxe
            rw [hxe] at hx
            exact hnotmem (List.getElem?_mem hx)
          omega
        have hH3' : ∀ (k x : Nat), k < dropIndex → dl[k]? = some x →
            x < srcIndex + 1 := by
          intro k x hk hx
          have := hH3 k x hk hx
          omega
        by_cases heq2 : srcIndex = dstIndex
        · rw [dropLoop_step_keep dl rem srcIndex dropIndex dstIndex ri ii d
            hd heq heq2] at hok
          obtain ⟨g1, g2⟩ := ih (srcIndex + 1) dropIndex (dstIndex + 1) ri ii
            dst' ri' ii' (by omega) hlen (by omega) hH3' hH2' hok
          subst heq2
          constructor
          · rw [g1, take_succ_of_lt ri srcIndex hsrcm,
              List.drop_eq_getElem_cons hsrcm]
            simp only [keptList]
            rw [if_neg hnotmem, List.append_assoc]
            rfl
          · rw [g2, take_succ_of_lt ii srcIndex hsrcm2,
              List.drop_eq_getElem_cons hsrcm2]
            simp only [keptList]
            rw [if_neg hnotmem, List.append_assoc]
            rfl
        · cases hri : ri[srcIndex]? with
          | none =>
            rw [List.getElem?_eq_getElem hsrcm] at hri
            simp at hri
          | some rv =>
            cases hii : ii[srcIndex]? with
            | none =>
              rw [List.getElem?_eq_getElem hsrcm2] at hii
              simp at hii
            | some iv =>
              rw [dropLoop_step_copy dl rem srcIndex dropIndex dstIndex ri ii
                d rv iv hd heq heq2 hri hii] at hok
              have hdlt : dstIndex < ri.length := by omega
              have hdlt2 : dstIndex < ii.length := by omega
              obtain ⟨g1, g2⟩ := ih (srcIndex + 1) dropIndex (dstIndex + 1)
                (ri.set dstIndex rv) (ii.set dstIndex iv) dst' ri' ii'
                (by rw [List.length_set]; omega)
                (by rw [List.length_set, List.length_set]; omega)
                (by omega) hH3' hH2' hok
              have hrv : rv = ri.get ⟨srcIndex, hsrcm⟩ := by
                rw [List.getElem?_eq_getElem hsrcm] at hri
                injection hri with h
                exact h.symm
              have hiv : iv = ii.get ⟨srcIndex, hsrcm2⟩ := by
                rw [List.getElem?_eq_getElem hsrcm2] at hii
                injection hii with h
                exact h.symm
              constructor
              · rw [g1, take_succ_set ri dstIndex rv hdlt,
                  List.drop_set_of_lt rv ri (by omega),
                  List.drop_eq_getElem_cons hsrcm]
                simp only [keptList]
                rw [if_neg hnotmem, List.append_assoc, hrv]
                rfl
              · rw [g2, take_succ_set ii dstIndex iv hdlt2,
                  List.drop_set_of_lt iv ii (by omega),
                  List.drop_eq_getElem_cons hsrcm2]
                simp only [keptList]
                rw [if_neg hnotmem, List.append_assoc, hiv]
                rfl


theorem dropTargets_ok (valueLen : Nat) (dl : List Nat)
    (ri : List FileDedupeRangeInfo) (ii : List Nat)
    (ri' : List FileDedupeRangeInfo) (ii' : List Nat)
    (hpw : List.Pairwise (· < ·) dl)
    (hbound : ∀ x ∈ dl, x < ri.length)
    (hlen : ii.length = ri.length)
    (hvl : ri.length ≤ valueLen)
    (hok : dropTargets valueLen dl ri ii = .ok (ri', ii')) :
    (dl = [] ∧ ri' = ri ∧ ii' = ii) ∨
    (ri.length = valueLen ∧ ri' = keptList dl 0 ri ∧
      ii' = keptList dl 0 ii) := by
  by_cases hemp : dl.isEmpty
  · left
    have hdl : dl = [] := List.isEmpty_iff.mp hemp
    simp only [dropTargets] at hok
    rw [if_pos hemp] at hok
    simp only [Except.ok.injEq, Prod.mk.injEq] at hok
    exact ⟨hdl, hok.1.symm, hok.2.symm⟩
  · rcases Nat.lt_or_ge ri.length valueLen with hlt | hge
    · exfalso
      have herr := dropLoop_short_err dl hpw valueLen 0 0 0 ri ii hbound
        (by omega) (by omega) (fun k x _ _ => Nat.zero_le x)
      simp only [dropTargets] at hok
      rw [if_neg hemp, herr] at hok
      simp at hok
    · have hgeq : ri.length = valueLen := by omega
      simp only [dropTargets] at hok
      rw [if_neg hemp] at hok
      cases hrun : dropLoop dl valueLen 0 0 0 ri ii with
      | error m =>
        rw [hrun] at hok
        simp at hok
      | ok triple =>
        obtain ⟨dst0, ri0, ii0⟩ := triple
        rw [hrun] at hok
        simp only [Except.ok.injEq, Prod.mk.injEq] at hok
        obtain ⟨h1, h2⟩ := hok
        obtain ⟨g1, g2⟩ := dropLoop_full_spec dl hpw valueLen 0 0 0 ri ii
          dst0 ri0 ii0 (by omega) hlen (le_refl 0)
          (by intro k x hk hx; omega) (fun k x _ _ => Nat.zero_le x) hrun
        right
        refine ⟨hgeq, ?_, ?_⟩
        · rw [← h1, g1]
          simp
        · rw [← h2, g2]
          simp


theorem dedupeLoop_completed_cond (oracle : DedupeOracle) (hasP : Bool)
    (fuel : Nat) :
    ∀ (value req : FileDedupeRange) (indices : List Nat)
      (round calls : Nat) (trace : List ProgressCall),
    (dedupeLoop oracle hasP fuel value req indices round calls
      trace).exit = .completed →
    ∃ fr, (dedupeLoop oracle hasP fuel value req indices round calls
        trace).finalReq = some fr ∧
      (fr.src_length = 0 ∨ fr.info = []) := by
  induction fuel with
  | zero =>
    intro value req indices round calls trace hc
    exact absurd hc (by simp [dedupeLoop])
  | succ fuel ih =>
    intro value req indices round calls trace
    cases horacle : oracle round req with
    | err e =>
      intro hc
      simp [dedupeLoop, horacle] at hc
    | ok resp =>
      simp only [dedupeLoop, horacle]
      split
      · intro hc
        simp at hc
      · split
        · intro hc
          simp at hc
        · split
          · rename_i hzero
            intro _
            exact ⟨_, rfl, Or.inl hzero⟩
          · split
            · intro hc
              simp at hc
            · split
              · rename_i hempt
                intro _
                exact ⟨_, rfl, Or.inr (List.isEmpty_iff.mp hempt)⟩
              · exact ih _ _ _ _ _ _


theorem dedupeLoop_terminates (oracle : DedupeOracle) (hasP : Bool)
    (hwf : WFOracle oracle) (hgood : GoodRounds oracle) (fuel : Nat) :
    ∀ (value req : FileDedupeRange) (indices : List Nat)
      (round calls : Nat) (trace : List ProgressCall),
    indices.length = req.info.length →
    req.info.length ≤ value.info.length →
    req.src_length + 1 ≤ fuel →
    (dedupeLoop oracle hasP fuel value req indices round calls
      trace).exit ≠ .outOfFuel := by
  induction fuel with
  | zero =>
    intro value req indices round calls trace _ _ hfuel
    omega
  | succ fuel ih =>
    intro value req indices round calls trace hidx hle hfuel
    cases horacle : oracle round req with
    | err e =>
      intro hc
      simp [dedupeLoop, horacle] at hc
    | ok resp =>
      simp only [dedupeLoop, horacle]
      obtain ⟨hrl, hrb⟩ := hwf round req resp horacle
      set ri1 := applyResp req.info resp with hri1
      set db := (firstSameBytes ri1).getD 0 with hdb
      set wb := writebackLoop db ri1 indices 0 value.info with hwb
      have hril : ri1.length = req.info.length := by
        rw [hri1]
        exact applyResp_length _ _
      have hlenle : ri1.length ≤ indices.length := by omega
      obtain ⟨hpwdl, hbnddl, hmemdl⟩ :=
        writebackLoop_dropList_spec db ri1 indices 0 value.info hlenle
      rw [← hwb] at hpwdl hbnddl hmemdl
      have hsndlen : wb.2.1.length = ri1.length := by
        rw [hwb]
        exact writebackLoop_snd_length _ _ _ _ _
      have hfstlen : wb.1.length = value.info.length := by
        rw [hwb]
        exact writebackLoop_fst_length _ _ _ _ _
      split
      · intro hc
        simp at hc
      · rename_i hvary
        split
        · intro hc
          simp at hc
        · rename_i hover
          split
          · intro hc
            simp at hc
          · rename_i hnz
            split
            · intro hc
              simp at hc
            · rename_i reqInfo2 indices2 hdrop
              split
              · intro hc
                simp at hc
              · rename_i hne
                have hne2 : reqInfo2 ≠ [] := by
                  intro h
                  rw [h] at hne
                  exact hne rfl
                have hdt := dropTargets_ok wb.1.length wb.2.2 wb.2.1 indices
                  reqInfo2 indices2 hpwdl
                  (fun x hx => by have := hbnddl x hx; omega)
                  (by omega) (by omega) hdrop
                have hsame : ∃ (j : Nat) (r0 : FileDedupeRangeInfo),
                    ri1[j]? = some r0 ∧
                    r0.status = FILE_DEDUPE_RANGE_SAME := by
                  obtain ⟨x, hxmem⟩ := List.exists_mem_of_ne_nil reqInfo2 hne2
                  rcases hdt with ⟨hdlnil, hreq2, hind2⟩ |
                    ⟨hfull, hreq2, hind2⟩
                  · rw [hreq2] at hxmem
                    obtain ⟨jj, hjb, hjx⟩ := List.getElem_of_mem hxmem
                    have hjlt : jj < ri1.length := by omega
                    refine ⟨jj, ri1[jj], List.getElem?_eq_getElem hjlt, ?_⟩
                    have hiff := hmemdl jj ri1[jj]
                      (List.getElem?_eq_getElem hjlt)
                    rw [hdlnil] at hiff
                    by_contra hns
                    exact List.not_mem_nil _ (hiff.mpr hns)
                  · rw [hreq2] at hxmem
                    obtain ⟨jj, hjq, hjn⟩ :=
                      (keptList_mem wb.2.2 wb.2.1 0 x).mp hxmem
                    have hjb := (List.getElem?_eq_some_iff.mp hjq).1
                    have hjlt : jj < ri1.length := by omega
                    refine ⟨jj, ri1[jj], List.getElem?_eq_getElem hjlt, ?_⟩
                    have hiff := hmemdl jj ri1[jj]
                      (List.getElem?_eq_getElem hjlt)
                    by_contra hns
                    exact hjn (hiff.mpr hns)
                obtain ⟨j, r0, hj, hstat⟩ := hsame
                have hvf : hasVaryingSame ri1 = false :=
                  Bool.eq_false_iff.mpr hvary
                have hdbpos : 1 ≤ db := by
                  have hj' : (applyResp req.info resp)[j]? = some r0 := by
                    rw [← hri1]
                    exact hj
                  obtain ⟨v0, p0, hv0, hp0, hr0eq⟩ :=
                    applyResp_entry req.info resp hrl j r0 hj'
                  have hp0same : p0.2 = FILE_DEDUPE_RANGE_SAME := by
                    rw [hr0eq] at hstat
                    exact hstat
                  rcases hgood round req resp horacle with hall |
                    ⟨q, hqmem, hqsame, hqpos⟩
                  · exact absurd hp0same (hall p0 (List.getElem?_mem hp0))
                  · obtain ⟨m, hmb, hmq⟩ := List.getElem_of_mem hqmem
                    have hmq2 : resp[m]? = some q := by
                      rw [List.getElem?_eq_getElem hmb, hmq]
                    have hment : m < ri1.length := by omega
                    have hentry0 : ri1[m]? = some ri1[m] :=
                      List.getElem?_eq_getElem hment
                    obtain ⟨v0', p0', hv0', hp0', hre⟩ :=
                      applyResp_entry req.info resp hrl m ri1[m]
                        (by rw [← hri1]; exact hentry0)
                    rw [hmq2] at hp0'
                    injection hp0' with hp0''
                    subst hp0''
                    have hst : (ri1[m]).status = FILE_DEDUPE_RANGE_SAME := by
                      rw [hre]
                      exact hqsame
                    have hby : (ri1[m]).bytes_deduped = q.1 := by
                      rw [hre]
                    have hr1mem : ri1[m] ∈ ri1 := List.getElem?_mem hentry0
                    have hcons := consensus_eq ri1 hvf ri1[m] hr1mem hst
                    have hcons2 := hcons.trans hby
                    omega
                have hover2 : db ≤ req.src_length := by
                  simp only [not_lt] at hover
                  exact hover
                have hnz2 : req.src_length - db ≠ 0 := hnz
                apply ih
                · show indices2.length = reqInfo2.length
                  rcases hdt with ⟨hdlnil, hreq2, hind2⟩ |
                    ⟨hfull, hreq2, hind2⟩
                  · rw [hreq2, hind2]
                    omega
                  · rw [hreq2, hind2]
                    exact keptList_length_eq wb.2.2 indices wb.2.1 0
                      (by omega)
                · show reqInfo2.length ≤ wb.1.length
                  rcases hdt with ⟨hdlnil, hreq2, hind2⟩ |
                    ⟨hfull, hreq2, hind2⟩
                  · rw [hreq2]
                    omega
                  · rw [hreq2]
                    have := List.Sublist.length_le
                      (keptList_sublist wb.2.2 wb.2.1 0)
                    omega
                · show req.src_length - db + 1 ≤ fuel
                  omega


theorem firstSameBytes_mem (l : List FileDedupeRangeInfo) :
    ∀ b, firstSameBytes l = some b →
    ∃ x, x ∈ l ∧ x.status = FILE_DEDUPE_RANGE_SAME ∧
      x.bytes_deduped = b := by
  induction l with
  | nil =>
    intro b hb
    simp [firstSameBytes] at hb
  | cons a t ih =>
    intro b hb
    by_cases ha : a.status = FILE_DEDUPE_RANGE_SAME
    · rw [firstSameBytes, if_pos ha] at hb
      injection hb with hb2
      exact ⟨a, List.mem_cons_self a t, ha, hb2⟩
    · rw [firstSameBytes, if_neg ha] at hb
      obtain ⟨x, hx, hxs, hxb⟩ := ih b hb
      exact ⟨x, List.mem_cons_of_mem a hx, hxs, hxb⟩

theorem dedupeLoop_zero_completes (oracle : DedupeOracle) (hasP : Bool)
    (hwf : WFOracle oracle)
    (hok : ∀ r q, ∃ resp, oracle r q = .ok resp) (fuel : Nat)
    (value req : FileDedupeRange) (indices : List Nat) (round calls : Nat)
    (trace : List ProgressCall) (hfuel : 1 ≤ fuel)
    (hsz : req.src_length = 0) :
    (dedupeLoop oracle hasP fuel value req indices round calls
      trace).exit = .completed := by
  cases fuel with
  | zero => omega
  | succ f =>
    obtain ⟨resp, horacle⟩ := hok round req
    obtain ⟨hrl, hrb⟩ := hwf round req resp horacle
    simp only [dedupeLoop, horacle]
    set ri1 := applyResp req.info resp with hri1
    have hball : ∀ x ∈ ri1, x.bytes_deduped = 0 := by
      intro x hx
      obtain ⟨k, hbk, hkx⟩ := List.getElem_of_mem hx
      have hk2 : ri1[k]? = some x := by
        rw [List.getElem?_eq_getElem hbk, hkx]
      obtain ⟨v, p, hv, hp, hxe⟩ :=
        applyResp_entry req.info resp hrl k x (by rw [← hri1]; exact hk2)
      have hple := hrb p (List.getElem?_mem hp)
      rw [hxe]
      show p.1 = 0
      omega
    have hnv : hasVaryingSame ri1 = false := by
      cases hfb : firstSameBytes ri1 with
      | none => simp [hasVaryingSame, hfb]
      | some b =>
        obtain ⟨y, hy, hys, hyb⟩ := firstSameBytes_mem ri1 b hfb
        have hb0 : b = 0 := by
          rw [← hyb]
          exact hball y hy
        unfold hasVaryingSame
        rw [hfb, List.any_eq_false]
        intro x hx h
        simp only [Bool.and_eq_true, beq_iff_eq, bne_iff_ne, ne_eq] at h
        exact h.2 (by rw [hball x hx, hb0])
    have hdb0 : (firstSameBytes ri1).getD 0 = 0 := by
      cases hfb : firstSameBytes ri1 with
      | none => rfl
      | some b =>
        obtain ⟨y, hy, hys, hyb⟩ := firstSameBytes_mem ri1 b hfb
        simp only [Option.getD_some]
        rw [← hyb]
        exact hball y hy
    rw [if_neg (by simp [hnv]), if_neg (by omega), if_pos (by omega)]

theorem dedupeLoop_empty_completes (oracle : DedupeOracle) (hasP : Bool)
    (hok : ∀ r q, ∃ resp, oracle r q = .ok resp) (fuel : Nat)
    (value req : FileDedupeRange) (indices : List Nat) (round calls : Nat)
    (trace : List ProgressCall) (hfuel : 1 ≤ fuel)
    (hinfo : req.info = []) :
    (dedupeLoop oracle hasP fuel value req indices round calls
      trace).exit = .completed := by
  cases fuel with
  | zero => omega
  | succ f =>
    obtain ⟨resp, horacle⟩ := hok round req
    simp only [dedupeLoop, horacle]
    have h1 : applyResp req.info resp = [] := by
      rw [hinfo]
      cases resp <;> rfl
    rw [h1, if_neg (by decide), if_neg (by simp [firstSameBytes])]
    have hwbe : writebackLoop
        ((firstSameBytes ([] : List FileDedupeRangeInfo)).getD 0) [] indices
        0 value.info = (value.info, [], []) := by
      cases indices <;> rfl
    rw [hwbe]
    by_cases hsz :
        req.src_length - (firstSameBytes ([] : List FileDedupeRangeInfo)).getD
          0 = 0
    · rw [if_pos hsz]
    · rw [if_neg hsz]
      rfl


theorem c6Oracle_wf : WFOracle c6Oracle := by
  intro r q resp h
  simp only [c6Oracle, IoctlReply.ok.injEq] at h
  subst h
  constructor
  · simp
  · intro p hp
    simp only [List.mem_map] at hp
    obtain ⟨x, hx, hpe⟩ := hp
    by_cases hz : q.src_length = 0
    · rw [if_pos hz] at hpe
      rw [← hpe]
      exact Nat.zero_le _
    · rw [if_neg hz] at hpe
      rw [← hpe]
      show 1 ≤ q.src_length
      omega

theorem c6Oracle_good : GoodRounds c6Oracle := by
  intro r q resp h
  simp only [c6Oracle, IoctlReply.ok.injEq] at h
  subst h
  by_cases hz : q.src_length = 0
  · left
    intro p hp
    simp only [List.mem_map] at hp
    obtain ⟨x, hx, hpe⟩ := hp
    rw [if_pos hz] at hpe
    rw [← hpe]
    decide
  · cases hq : q.info with
    | nil =>
      left
      intro p hp
      simp at hp
    | cons a t =>
      right
      refine ⟨((1 : Nat), FILE_DEDUPE_RANGE_SAME), ?_, rfl, by decide⟩
      simp only [List.map_cons, if_neg hz]
      exact List.mem_cons_self _ _


/-- C6: the run returns successfully exactly at the two conditions the claim
names: (1) a completed run always ends with the remaining source length at
zero or the live target set empty; (2) conversely, a zero remaining length
(with live targets and a well-formed, non-erring kernel) completes the run,
and (3) an empty live target set at any loop entry completes the run (a
caller-level empty set is the precondition panic instead, claim C10); and
(4) whenever every round either reports a positive agreed byte count for
some surviving SAME target or drops every remaining target (GoodRounds), the
loop terminates within src_length + 1 rounds — a persistent zero-byte SAME
round is thereby the only way it can run forever. -/
theorem c6_success_condition_and_termination (oracle : DedupeOracle)
    (hasP : Bool) (value : FileDedupeRange) (fuel : Nat) :
    ((fileDedupeRangeFull oracle hasP (some value) fuel).exit =
        .completed →
      ∃ fr, (fileDedupeRangeFull oracle hasP (some value) fuel).finalReq =
          some fr ∧ (fr.src_length = 0 ∨ fr.info = [])) ∧
    (value.info ≠ [] → WFOracle oracle →
      (∀ r q, ∃ resp, oracle r q = .ok resp) → 1 ≤ fuel →
      value.src_length = 0 →
      (fileDedupeRangeFull oracle hasP (some value) fuel).exit =
        .completed) ∧
    (∀ (req : FileDedupeRange) (indices : List Nat) (round calls : Nat)
        (trace : List ProgressCall),
      (∀ r q, ∃ resp, oracle r q = .ok resp) → 1 ≤ fuel → req.info = [] →
      (dedupeLoop oracle hasP fuel value req indices round calls
        trace).exit = .completed) ∧
    (WFOracle oracle → GoodRounds oracle → value.src_length + 1 ≤ fuel →
      (fileDedupeRangeFull oracle hasP (some value) fuel).exit ≠
        .outOfFuel) := by
  refine ⟨?_, ?_, ?_, ?_⟩
  · intro hc
    simp only [fileDedupeRangeFull] at hc ⊢
    by_cases hemp : value.info.isEmpty
    · rw [if_pos hemp] at hc
      simp at hc
    · rw [if_neg hemp] at hc ⊢
      exact dedupeLoop_completed_cond oracle hasP fuel value _ _ 0 0 _ hc
  · intro hne hwf hok hfuel hsz
    simp only [fileDedupeRangeFull]
    have hemp : ¬ value.info.isEmpty = true := by
      intro h
      exact hne (List.isEmpty_iff.mp h)
    rw [if_neg hemp]
    exact dedupeLoop_zero_completes oracle hasP hwf hok fuel value _ _ 0 0 _
      hfuel hsz
  · intro req indices round calls trace hok hfuel hinfo
    exact dedupeLoop_empty_completes oracle hasP hok fuel value req indices
      round calls trace hfuel hinfo
  · intro hwf hgood hfuel
    simp only [fileDedupeRangeFull]
    by_cases hemp : value.info.isEmpty
    · rw [if_pos hemp]
      intro hc
      simp at hc
    · rw [if_neg hemp]
      apply dedupeLoop_terminates oracle hasP hwf hgood fuel value _ _ 0 0 _
      · simp
      · exact le_refl _
      · exact hfuel

/-- C6 witness: the four conjuncts at concrete inputs — a zero-length request
completes (and its final state satisfies the success condition), an
empty-live-set loop entry completes, and a 4-byte run under the well-formed
progressing oracle terminates. -/
theorem c6_success_condition_and_termination_witness :
    WFOracle c6Oracle ∧ GoodRounds c6Oracle ∧
    (fileDedupeRangeFull c6Oracle true (some c3Value) 5).exit =
      DedupeExit.completed ∧
    (∃ fr, (fileDedupeRangeFull c6Oracle true (some c3Value) 5).finalReq =
        some fr ∧ (fr.src_length = 0 ∨ fr.info = [])) ∧
    (dedupeLoop c6Oracle true 5 c2Value c2EmptyReq [] 0 0 []).exit =
      DedupeExit.completed ∧
    (fileDedupeRangeFull c6Oracle true (some c2Value) 5).exit ≠
      DedupeExit.outOfFuel := by
  have hwf : WFOracle c6Oracle := c6Oracle_wf
  have hgood : GoodRounds c6Oracle := c6Oracle_good
  have hok : ∀ r q, ∃ resp, c6Oracle r q = .ok resp := fun r q => ⟨_, rfl⟩
  have h2 : (fileDedupeRangeFull c6Oracle true (some c3Value) 5).exit =
      DedupeExit.completed :=
    (c6_success_condition_and_termination c6Oracle true c3Value 5).2.1
      (by decide) hwf hok (by decide) (by decide)
  refine ⟨hwf, hgood, h2, ?_, ?_, ?_⟩
  · exact (c6_success_condition_and_termination c6Oracle true c3Value 5).1 h2
  · exact (c6_success_condition_and_termination c6Oracle true c2Value 5).2.2.1
      c2EmptyReq [] 0 0 [] hok (by decide) rfl
  · exact (c6_success_condition_and_termination c6Oracle true c2Value 5).2.2.2
      hwf hgood (by decide)


theorem dedupeLoop_inv (oracle : DedupeOracle) (hasP : Bool)
    (hwf : WFOracle oracle) (fuel : Nat) :
    ∀ (value req : FileDedupeRange) (indices : List Nat)
      (round calls : Nat) (trace : List ProgressCall),
    DedupeInv value req indices →
    ∃ v', (dedupeLoop oracle hasP fuel value req indices round calls
        trace).value = some v' ∧
      (∀ (j : Nat) (x : FileDedupeRangeInfo), v'.info[j]? = some x →
        x.bytes_deduped ≤ value.src_length) ∧
      (∀ j : Nat, j < value.info.length → j ∉ indices →
        v'.info[j]? = value.info[j]?) ∧
      ∃ fr, (dedupeLoop oracle hasP fuel value req indices round calls
          trace).finalReq = some fr ∧
        fr.src_offset + fr.src_length =
          value.src_offset + value.src_length ∧
        fr.src_length ≤ value.src_length := by
  induction fuel with
  | zero =>
    intro value req indices round calls trace hinv
    obtain ⟨hI1, hI2, hI3, hI4, hI5, hI6, hI7⟩ := hinv
    refine ⟨value, rfl, ?_, fun j _ _ => rfl, req, rfl, hI5, hI4⟩
    intro j x hx
    by_cases hj : j ∈ indices
    · obtain ⟨m, hm⟩ := List.mem_iff_getElem?.mp hj
      have := (hI6 m j hm).2 x hx
      omega
    · have hjlt : j < value.info.length :=
        (List.getElem?_eq_some_iff.mp hx).1
      exact hI7 j hjlt hj x hx
  | succ fuel ih =>
    intro value req indices round calls trace hinv
    obtain ⟨hI1, hI2, hI3, hI4, hI5, hI6, hI7⟩ := hinv
    have hbounded0 : ∀ (j : Nat) (x : FileDedupeRangeInfo),
        value.info[j]? = some x → x.bytes_deduped ≤ value.src_length := by
      intro j x hx
      by_cases hj : j ∈ indices
      · obtain ⟨m, hm⟩ := List.mem_iff_getElem?.mp hj
        have := (hI6 m j hm).2 x hx
        omega
      · have hjlt : j < value.info.length :=
          (List.getElem?_eq_some_iff.mp hx).1
        exact hI7 j hjlt hj x hx
    cases horacle : oracle round req with
    | err e =>
      exact ⟨value, by simp [dedupeLoop, horacle], hbounded0,
        fun j _ _ => rfl, req, by simp [dedupeLoop, horacle], hI5, hI4⟩
    | ok resp =>
      obtain ⟨hrl, hrb⟩ := hwf round req resp horacle
      simp only [dedupeLoop, horacle]
      set ri1 := applyResp req.info resp with hri1
      set db := (firstSameBytes ri1).getD 0 with hdb
      set wb := writebackLoop db ri1 indices 0 value.info with hwb
      have hril : ri1.length = req.info.length := by
        rw [hri1]
        exact applyResp_length _ _
      split
      · exact ⟨value, rfl, hbounded0, fun j _ _ => rfl, _, rfl, hI5, hI4⟩
      · rename_i hvary
        split
        · exact ⟨value, rfl, hbounded0, fun j _ _ => rfl, _, rfl, hI5, hI4⟩
        · rename_i hover
          have hover2 : db ≤ req.src_length := by
            simp only [not_lt] at hover
            exact hover
          have hvf : hasVaryingSame ri1 = false :=
            Bool.eq_false_iff.mpr hvary
          have hlenle : ri1.length ≤ indices.length := by omega
          obtain ⟨hpwdl, hbnddl, hmemdl⟩ :=
            writebackLoop_dropList_spec db ri1 indices 0 value.info hlenle
          rw [← hwb] at hpwdl hbnddl hmemdl
          have hsndlen : wb.2.1.length = ri1.length := by
            rw [hwb]
            exact writebackLoop_snd_length _ _ _ _ _
          have hfstlen : wb.1.length = value.info.length := by
            rw [hwb]
            exact writebackLoop_fst_length _ _ _ _ _
          have hfrozen1 : ∀ j : Nat, j ∉ indices →
              wb.1[j]? = value.info[j]? := by
            intro j hj
            rw [hwb]
            exact writebackLoop_fst_not_mem db ri1 indices 0 value.info j hj
          have hpair : ∀ (m j : Nat), indices[m]? = some j →
              ∃ r0, ri1[m]? = some r0 ∧
              wb.1[j]? = (value.info[j]?).map (fun x =>
                { x with
                  bytes_deduped := x.bytes_deduped + r0.bytes_deduped,
                  status := r0.status }) := by
            intro m j hm
            have hmlt : m < ri1.length := by
              have := (List.getElem?_eq_some_iff.mp hm).1
              omega
            refine ⟨ri1[m], List.getElem?_eq_getElem hmlt, ?_⟩
            rw [hwb]
            exact writebackLoop_fst_pair db ri1 indices 0 value.info m j
              ri1[m] hI1 hm (List.getElem?_eq_getElem hmlt)
          have hr0le : ∀ (m : Nat) (r0 : FileDedupeRangeInfo),
              ri1[m]? = some r0 → r0.bytes_deduped ≤ req.src_length := by
            intro m r0 hm
            obtain ⟨v0, p0, hv0, hp0, hre⟩ :=
              applyResp_entry req.info resp hrl m r0
                (by rw [← hri1]; exact hm)
            have := hrb p0 (List.getElem?_mem hp0)
            rw [hre]
            show p0.1 ≤ req.src_length
            exact this
          have hbounded1 : ∀ (j : Nat) (x : FileDedupeRangeInfo),
              wb.1[j]? = some x → x.bytes_deduped ≤ value.src_length := by
            intro j x hx
            by_cases hj : j ∈ indices
            · obtain ⟨m, hm⟩ := List.mem_iff_getElem?.mp hj
              obtain ⟨r0, hr0, hmap⟩ := hpair m j hm
              rw [hmap] at hx
              obtain ⟨y, hy, hxy⟩ := Option.map_eq_some'.mp hx
              have h1 := (hI6 m j hm).2 y hy
              have h2 := hr0le m r0 hr0
              rw [← hxy]
              show y.bytes_deduped + r0.bytes_deduped ≤ value.src_length
              omega
            · rw [hfrozen1 j hj] at hx
              exact hbounded0 j x hx
          have hsame_db : ∀ (k : Nat) (r0 : FileDedupeRangeInfo),
              ri1[k]? = some r0 → (0 + k) ∉ wb.2.2 →
              r0.bytes_deduped = db := by
            intro k r0 hk hnk
            have hiff := hmemdl k r0 hk
            have hst : r0.status = FILE_DEDUPE_RANGE_SAME := by
              by_contra hns
              exact hnk (hiff.mpr hns)
            have := consensus_eq ri1 hvf r0 (List.getElem?_mem hk) hst
            omega
          split
          · refine ⟨_, rfl, hbounded1, fun j _ hj => hfrozen1 j hj, _, rfl,
              ?_, ?_⟩
            · show req.src_offset + db + (req.src_length - db) =
                value.src_offset + value.src_length
              omega
            · show req.src_length - db ≤ value.src_length
              omega
          · rename_i hnz
            split
            · refine ⟨_, rfl, hbounded1, fun j _ hj => hfrozen1 j hj, _, rfl,
                ?_, ?_⟩
              · show req.src_offset + db + (req.src_length - db) =
                  value.src_offset + value.src_length
                omega
              · show req.src_length - db ≤ value.src_length
                omega
            · rename_i reqInfo2 indices2 hdrop
              split
              · refine ⟨_, rfl, hbounded1, fun j _ hj => hfrozen1 j hj, _,
                  rfl, ?_, ?_⟩
                · show req.src_offset + db + (req.src_length - db) =
                    value.src_offset + value.src_length
                  omega
                · show req.src_length - db ≤ value.src_length
                  omega
              · rename_i hne
                have hdt := dropTargets_ok wb.1.length wb.2.2 wb.2.1 indices
                  reqInfo2 indices2 hpwdl
                  (fun x hx => by have := hbnddl x hx; omega)
                  (by omega) (by omega) hdrop
                have hmem2 : ∀ j, j ∈ indices2 → j ∈ indices := by
                  rcases hdt with ⟨hdlnil, hreq2, hind2⟩ |
                    ⟨hfull, hreq2, hind2⟩
                  · rw [hind2]
                    exact fun j h => h
                  · rw [hind2]
                    exact fun j h =>
                      (keptList_sublist wb.2.2 indices 0).subset h
                have hsurv : ∀ (j : Nat), j ∈ indices2 →
                    ∃ (k : Nat) (r0 : FileDedupeRangeInfo),
                    indices[k]? = some j ∧ ri1[k]? = some r0 ∧
                    r0.bytes_deduped = db := by
                  intro j hj
                  rcases hdt with ⟨hdlnil, hreq2, hind2⟩ |
                    ⟨hfull, hreq2, hind2⟩
                  · rw [hind2] at hj
                    obtain ⟨k, hk⟩ := List.mem_iff_getElem?.mp hj
                    have hklt : k < ri1.length := by
                      have := (List.getElem?_eq_some_iff.mp hk).1
                      omega
                    refine ⟨k, ri1[k], hk,
                      List.getElem?_eq_getElem hklt, ?_⟩
                    apply hsame_db k ri1[k] (List.getElem?_eq_getElem hklt)
                    rw [hdlnil]
                    exact List.not_mem_nil _
                  · rw [hind2] at hj
                    obtain ⟨k, hk, hnk⟩ :=
                      (keptList_mem wb.2.2 indices 0 j).mp hj
                    have hklt : k < ri1.length := by
                      have := (List.getElem?_eq_some_iff.mp hk).1
                      omega
                    exact ⟨k, ri1[k], hk,
                      List.getElem?_eq_getElem hklt,
                      hsame_db k ri1[k] (List.getElem?_eq_getElem hklt) hnk⟩
                have hI1' : indices2.Nodup := by
                  rcases hdt with ⟨hdlnil, hreq2, hind2⟩ |
                    ⟨hfull, hreq2, hind2⟩
                  · rw [hind2]
                    exact hI1
                  · rw [hind2]
                    exact List.Nodup.sublist
                      (keptList_sublist wb.2.2 indices 0) hI1
                have hI2' : indices2.length = reqInfo2.length := by
                  rcases hdt with ⟨hdlnil, hreq2, hind2⟩ |
                    ⟨hfull, hreq2, hind2⟩
                  · rw [hreq2, hind2]
                    omega
                  · rw [hreq2, hind2]
                    exact keptList_length_eq wb.2.2 indices wb.2.1 0
                      (by omega)
                have hI3' : reqInfo2.length ≤ wb.1.length := by
                  rcases hdt with ⟨hdlnil, hreq2, hind2⟩ |
                    ⟨hfull, hreq2, hind2⟩
                  · rw [hreq2]
                    omega
                  · rw [hreq2]
                    have := List.Sublist.length_le
                      (keptList_sublist wb.2.2 wb.2.1 0)
                    omega
                have hinv' : DedupeInv
                    (FileDedupeRange.mk value.src_offset value.src_length
                      value.reserved1 value.reserved2 wb.1)
                    (FileDedupeRange.mk (req.src_offset + db)
                      (req.src_length - db) req.reserved1 req.reserved2
                      reqInfo2)
                    indices2 := by
                  refine ⟨hI1', hI2', hI3', ?_, ?_, ?_, ?_⟩
                  · show req.src_length - db ≤ value.src_length
                    omega
                  · show req.src_offset + db + (req.src_length - db) =
                      value.src_offset + value.src_length
                    omega
                  · intro m j hm
                    have hj2 : j ∈ indices2 := List.getElem?_mem hm
                    obtain ⟨k, r0, hk, hr0, hrdb⟩ := hsurv j hj2
                    have hj6 := hI6 k j hk
                    constructor
                    · show j < wb.1.length
                      have := hj6.1
                      omega
                    · intro v hv
                      have hv2 : wb.1[j]? = some v := hv
                      obtain ⟨r0', hr0', hmap⟩ := hpair k j hk
                      rw [hr0] at hr0'
                      injection hr0' with hre
                      rw [← hre] at hmap
                      rw [hmap] at hv2
                      obtain ⟨y, hy, hxy⟩ := Option.map_eq_some'.mp hv2
                      have h6 := hj6.2 y hy
                      rw [← hxy]
                      show y.bytes_deduped + r0.bytes_deduped +
                        (req.src_length - db) = value.src_length
                      omega
                  · intro j hjlt hj v hv
                    have hv2 : wb.1[j]? = some v := hv
                    show v.bytes_deduped ≤ value.src_length
                    exact hbounded1 j v hv2
                obtain ⟨v2, h0, hb, hf, fr, hfr, hacc1, hacc2⟩ :=
                  ih (FileDedupeRange.mk value.src_offset value.src_length
                      value.reserved1 value.reserved2 wb.1)
                    (FileDedupeRange.mk (req.src_offset + db)
                      (req.src_length - db) req.reserved1 req.reserved2
                      reqInfo2)
                    indices2 (round + 1) (calls + 1)
                    (emitP hasP trace
                      (req.src_offset + db, value.src_length, false)) hinv'
                have hf' : ∀ j : Nat, j < value.info.length → j ∉ indices →
                    v2.info[j]? = value.info[j]? := by
                  intro j hjlt hj
                  have hj2 : j ∉ indices2 := fun h => hj (hmem2 j h)
                  have h2 : v2.info[j]? = wb.1[j]? :=
                    hf j (show j < wb.1.length by omega) hj2
                  exact h2.trans (hfrozen1 j hj)
                exact ⟨v2, h0, fun j x hx => hb j x hx, hf', fr, hfr,
                  hacc1, hacc2⟩


/-- C5: with a kernel honoring the FIDEDUPERANGE contract and zero initial
per-target counters, every run keeps each caller target's accumulated byte
count monotonically non-decreasing (OptEvolves), never lets it exceed the
originally requested source length, leaves a dropped target's record (count
and status) unchanged from the round it is dropped (the positions outside the
live index set are frozen, at every loop state satisfying the invariant), and
keeps the offset bookkeeping exact: the final request's processed plus
remaining bytes always equal the original requested length. -/
theorem c5_accumulation_invariants (oracle : DedupeOracle) (hasP : Bool)
    (value : FileDedupeRange) (fuel : Nat)
    (hwf : WFOracle oracle)
    (hzero : ∀ x ∈ value.info, x.bytes_deduped = 0) :
    (∃ v', (fileDedupeRangeFull oracle hasP (some value) fuel).value =
        some v' ∧
      (∀ j : Nat, OptEvolves value.info[j]? v'.info[j]?) ∧
      (∀ (j : Nat) (x : FileDedupeRangeInfo), v'.info[j]? = some x →
        x.bytes_deduped ≤ value.src_length) ∧
      (value.info ≠ [] →
        ∃ fr, (fileDedupeRangeFull oracle hasP (some value) fuel).finalReq =
            some fr ∧
          fr.src_offset + fr.src_length =
            value.src_offset + value.src_length ∧
          fr.src_length ≤ value.src_length)) ∧
    (∀ (w rq : FileDedupeRange) (indices : List Nat) (round calls : Nat)
        (trace : List ProgressCall), DedupeInv w rq indices →
      ∃ v', (dedupeLoop oracle hasP fuel w rq indices round calls
          trace).value = some v' ∧
        (∀ j : Nat, j < w.info.length → j ∉ indices →
          v'.info[j]? = w.info[j]?) ∧
        (∀ (j : Nat) (x : FileDedupeRangeInfo), v'.info[j]? = some x →
          x.bytes_deduped ≤ w.src_length)) := by
  constructor
  · simp only [fileDedupeRangeFull]
    by_cases hemp : value.info.isEmpty
    · rw [if_pos hemp]
      refine ⟨value, rfl, fun j => optEvolves_refl _, ?_,
        fun hne => absurd (List.isEmpty_iff.mp hemp) hne⟩
      intro j x hx
      rw [hzero x (List.getElem?_mem hx)]
      exact Nat.zero_le _
    · rw [if_neg hemp]
      have hinv0 : DedupeInv value
          (FileDedupeRange.mk value.src_offset value.src_length
            value.reserved1 value.reserved2 value.info)
          (List.range value.info.length) := by
        refine ⟨List.nodup_range _, by simp, by simp, le_refl _, rfl, ?_, ?_⟩
        · intro m j hm
          have hmj : m < value.info.length ∧ j = m := by
            rcases Nat.lt_or_ge m value.info.length with h | h
            · rw [List.getElem?_range h] at hm
              injection hm with h2
              exact ⟨h, h2.symm⟩
            · rw [List.getElem?_eq_none (by simpa using h)] at hm
              exact absurd hm (by simp)
          obtain ⟨hmlt, hjm⟩ := hmj
          subst hjm
          refine ⟨hmlt, ?_⟩
          intro v hv
          show v.bytes_deduped + value.src_length = value.src_length
          rw [hzero v (List.getElem?_mem hv)]
          omega
        · intro j hjlt hj v hv
          exact absurd (List.mem_range.mpr hjlt) hj
      obtain ⟨v', h0, hb, hf, fr, hfr, ha1, ha2⟩ :=
        dedupeLoop_inv oracle hasP hwf fuel value
          (FileDedupeRange.mk value.src_offset value.src_length
            value.reserved1 value.reserved2 value.info)
          (List.range value.info.length) 0 0
          (emitP hasP [] (0, value.src_length, false)) hinv0
      obtain ⟨v2, g0, g1, g2, g3, g4, g5, g6⟩ :=
        dedupeLoop_value_evolves oracle hasP fuel value
          (FileDedupeRange.mk value.src_offset value.src_length
            value.reserved1 value.reserved2 value.info)
          (List.range value.info.length) 0 0
          (emitP hasP [] (0, value.src_length, false))
      rw [h0] at g0
      injection g0 with he
      refine ⟨v', h0, ?_, hb, fun _ => ⟨fr, hfr, ha1, ha2⟩⟩
      intro j
      rw [he]
      exact g6 j
  · intro w rq indices round calls trace hinvw
    obtain ⟨v', h0, hb, hf, _⟩ :=
      dedupeLoop_inv oracle hasP hwf fuel w rq indices round calls trace
        hinvw
    exact ⟨v', h0, hf, hb⟩


/-- C5 witness: the invariants at a concrete one-target, 4-byte run under the
well-formed oracle, both at the caller level and at a concrete mid-loop state
satisfying the loop invariant. -/
theorem c5_accumulation_invariants_witness :
    WFOracle c6Oracle ∧ (∀ x ∈ c2Value.info, x.bytes_deduped = 0) ∧
    DedupeInv c2Value c2Value [0] ∧
    (∃ v', (fileDedupeRangeFull c6Oracle true (some c2Value) 5).value =
        some v' ∧
      (∀ j : Nat, OptEvolves c2Value.info[j]? v'.info[j]?) ∧
      (∀ (j : Nat) (x : FileDedupeRangeInfo), v'.info[j]? = some x →
        x.bytes_deduped ≤ c2Value.src_length)) ∧
    (∃ v', (dedupeLoop c6Oracle true 5 c2Value c2Value [0] 0 0 []).value =
        some v' ∧
      (∀ j : Nat, j < c2Value.info.length → j ∉ ([0] : List Nat) →
        v'.info[j]? = c2Value.info[j]?) ∧
      (∀ (j : Nat) (x : FileDedupeRangeInfo), v'.info[j]? = some x →
        x.bytes_deduped ≤ c2Value.src_length)) := by
  have hwf : WFOracle c6Oracle := c6Oracle_wf
  have hzero : ∀ x ∈ c2Value.info, x.bytes_deduped = 0 := by decide
  have hinv : DedupeInv c2Value c2Value [0] := by
    refine ⟨by decide, rfl, le_refl _, le_refl _, rfl, ?_, ?_⟩
    · intro m j hm
      cases m with
      | zero =>
        injection hm with h2
        subst h2
        refine ⟨by decide, ?_⟩
        intro v hv
        simp only [c2Value, List.getElem?_cons_zero] at hv
        injection hv with h3
        rw [← h3]
        decide
      | succ m =>
        simp at hm
    · intro j hjlt hj v hv
      have hj1 : j < 1 := hjlt
      have hj0 : j = 0 := by omega
      subst hj0
      exact absurd (by decide : (0 : Nat) ∈ ([0] : List Nat)) hj
  refine ⟨hwf, hzero, hinv, ?_, ?_⟩
  · obtain ⟨v', h0, hev, hb, _⟩ :=
      (c5_accumulation_invariants c6Oracle true c2Value 5 hwf hzero).1
    exact ⟨v', h0, hev, hb⟩
  · obtain ⟨v', h0, hf, hb⟩ :=
      (c5_accumulation_invariants c6Oracle true c2Value 5 hwf hzero).2
        c2Value c2Value [0] 0 0 [] hinv
    exact ⟨v', h0, hf, hb⟩

end BtrfsOptimize
